import Mathlib

/-!
Verification development for the performance2025 process monitor.

The Python sources are shallowly embedded: pure fragments become Lean
functions, SQLite tables become lists of row structures, the filesystem
becomes a map from paths to optional contents, and the periodic monitor
loop becomes a step function over an environment of possibly-failing
collaborators.  Character-level work (lower-casing, trimming, byte-wise
TEXT comparison) is done on lists of characters so that every definition
evaluates inside the kernel.  Strings are modelled over printable ASCII,
Python floats are modelled as exact integers (no claim performs float
arithmetic), and JSON numbers are modelled as integers.
-/

namespace Performance2025

/-! ## Character and string utilities -/

/-- Lower-casing of one character, modelling Python str.lower on ASCII. -/
def lowChar (c : Char) : Char := c.toLower

/-- Lower-cased character list of a string (model of Python s.lower()). -/
def lowerS (s : String) : List Char := s.data.map lowChar

/-- Whitespace test used by Python str.strip and the JSON scanner
(space, tab, line feed, carriage return). -/
def isWsChar (c : Char) : Bool :=
  c = ' ' || c = '\t' || c = '\n' || c = '\r'

/-- Trimming of leading and trailing whitespace, modelling str.strip(). -/
def trimL (l : List Char) : List Char :=
  ((l.dropWhile isWsChar).reverse.dropWhile isWsChar).reverse

/-- Byte-wise lexicographic order on character lists: the model of the
comparison SQLite applies to TEXT columns (memcmp order, which on the
ISO-8601 timestamps stored by the program coincides with chronological
order). -/
def leChars : List Char → List Char → Bool
  | a :: as, b :: bs =>
    if a < b then true
    else if a = b then leChars as bs
    else false
  | [], _ => true
  | _ :: _, [] => false

/-- TEXT-column comparison on strings. -/
def tsLeB (a b : String) : Bool := leChars a.data b.data

/-- Opening curly brace character. -/
def lbraceChar : Char := Char.ofNat 123

/-- Closing curly brace character. -/
def rbraceChar : Char := Char.ofNat 125

/-! ## JSON values

The extra_metrics column of the store holds a JSON blob produced by
json.dumps and read back by json.loads.  Json is the value domain,
dumpV the serializer (matching the default json.dumps layout: items
separated by comma-space, keys separated by colon-space), and the
fuel-indexed functions further below the recursive-descent reader. -/

/-- JSON values: nulls, booleans, integer numbers, strings, arrays and
objects (objects keep the insertion order of the Python dict). -/
inductive Json where
  | null : Json
  | bool (b : Bool) : Json
  | num (n : Int) : Json
  | str (s : String) : Json
  | arr (elems : List Json) : Json
  | obj (fields : List (String × Json)) : Json

/-- Decimal digits of a natural number, most significant first, computed
with explicit fuel so that the kernel can evaluate it. -/
def natCharsAux : Nat → Nat → List Char
  | 0, _ => []
  | fuel + 1, m =>
    if m < 10 then [Nat.digitChar m]
    else natCharsAux fuel (m / 10) ++ [Nat.digitChar (m % 10)]

/-- Decimal representation of a natural number. -/
def natChars (m : Nat) : List Char := natCharsAux (m + 1) m

/-- Decimal representation of an integer, as json.dumps prints it. -/
def intChars (i : Int) : List Char :=
  if i < 0 then '-' :: natChars i.natAbs else natChars i.natAbs

/-- Serialization of a string body: quote and backslash are escaped, all
other characters pass through, and the closing quote is appended. -/
def escChars : List Char → List Char
  | [] => ['"']
  | c :: r =>
    if c = '"' then '\\' :: '"' :: escChars r
    else if c = '\\' then '\\' :: '\\' :: escChars r
    else c :: escChars r

mutual

/-- Serialization of one JSON value, the model of json.dumps with its
default separators. -/
def dumpV : Json → List Char
  | .null => "null".data
  | .bool true => "true".data
  | .bool false => "false".data
  | .num i => intChars i
  | .str s => '"' :: escChars s.data
  | .arr [] => ['[', ']']
  | .arr (v :: vs) => '[' :: (dumpV v ++ dumpTail vs)
  | .obj [] => [lbraceChar, rbraceChar]
  | .obj (m :: ms) => lbraceChar :: (dumpMem m ++ dumpMTail ms)

/-- Serialization of the remaining array elements followed by the
closing bracket. -/
def dumpTail : List Json → List Char
  | [] => [']']
  | v :: vs => ',' :: ' ' :: (dumpV v ++ dumpTail vs)

/-- Serialization of one object member. -/
def dumpMem : String × Json → List Char
  | (k, v) => ('"' :: escChars k.data) ++ (':' :: ' ' :: dumpV v)

/-- Serialization of the remaining object members followed by the
closing brace. -/
def dumpMTail : List (String × Json) → List Char
  | [] => [rbraceChar]
  | m :: ms => ',' :: ' ' :: (dumpMem m ++ dumpMTail ms)

end

/-- Printable-ASCII test: the range of characters on which the model of
json.dumps agrees with Python byte for byte (outside it Python would
emit unicode escapes). -/
def isPrintableAscii (c : Char) : Bool := 31 < c.toNat && c.toNat < 127

/-- Validity of a string for the JSON model: printable ASCII only. -/
def validStr (s : String) : Bool := s.data.all isPrintableAscii

mutual

/-- Validity of a JSON value for the serialization model: every string
and every object key is printable ASCII. -/
def validV : Json → Bool
  | .null => true
  | .bool _ => true
  | .num _ => true
  | .str s => validStr s
  | .arr l => validL l
  | .obj m => validM m

/-- Validity of a list of JSON values. -/
def validL : List Json → Bool
  | [] => true
  | v :: vs => validV v && validL vs

/-- Validity of a list of object members. -/
def validM : List (String × Json) → Bool
  | [] => true
  | m :: ms => validStr m.1 && validV m.2 && validM ms

end

mutual

/-- Fuel bound for reading back one value. -/
def sizeV : Json → Nat
  | .arr l => sizeL l + 1
  | .obj m => sizeM m + 1
  | .null => 1
  | .bool _ => 1
  | .num _ => 1
  | .str _ => 1

/-- Fuel bound for reading back a non-empty element list. -/
def sizeL : List Json → Nat
  | [] => 0
  | v :: vs => max (sizeV v) (sizeL vs) + 1

/-- Fuel bound for reading back a non-empty member list. -/
def sizeM : List (String × Json) → Nat
  | [] => 0
  | m :: ms => max (sizeV m.2) (sizeM ms) + 1

end

/-- Skipping of leading whitespace. -/
def skipWs : List Char → List Char
  | [] => []
  | c :: r => if isWsChar c then skipWs r else c :: r

/-- Digit-sequence reading: the numeric value of a most significant
first digit list. -/
def digitsVal (ds : List Char) : Nat :=
  ds.foldl (fun a c => a * 10 + (c.toNat - 48)) 0

/-- Reading of an unsigned decimal number at the head of the input. -/
def parseNatNum (cs : List Char) : Option (Nat × List Char) :=
  if (cs.takeWhile Char.isDigit).isEmpty then none
  else some (digitsVal (cs.takeWhile Char.isDigit), cs.dropWhile Char.isDigit)

/-- Reading of a string body up to the closing quote, undoing the
escapes of escChars. -/
def parseStrBody : List Char → Option (List Char × List Char)
  | [] => none
  | c :: r =>
    if c = '"' then some ([], r)
    else if c = '\\' then
      match r with
      | [] => none
      | d :: r2 =>
        if d = '"' || d = '\\' then
          match parseStrBody r2 with
          | some (s, r3) => some (d :: s, r3)
          | none => none
        else none
    else
      match parseStrBody r with
      | some (s, r3) => some (c :: s, r3)
      | none => none

/-- Matching of an expected literal character sequence. -/
def stripLit : List Char → List Char → Option (List Char)
  | [], cs => some cs
  | p :: ps, c :: cs => if c = p then stripLit ps cs else none
  | _ :: _, [] => none

mutual

/-- Reading of one JSON value, the model of the recursive-descent core
of json.loads, indexed by fuel. -/
def parseV : Nat → List Char → Option (Json × List Char)
  | 0, _ => none
  | n + 1, cs =>
    match cs with
    | [] => none
    | c :: r =>
      if c = lbraceChar then
        match skipWs r with
        | [] => none
        | d :: r2 =>
          if d = rbraceChar then some (.obj [], r2)
          else
            match parseMems n (d :: r2) with
            | some (ms, r3) => some (.obj ms, r3)
            | none => none
      else if c = '"' then
        match parseStrBody r with
        | some (s, r2) => some (.str (String.mk s), r2)
        | none => none
      else if c = '[' then
        match skipWs r with
        | [] => none
        | d :: r2 =>
          if d = ']' then some (.arr [], r2)
          else
            match parseElems n (d :: r2) with
            | some (vs, r3) => some (.arr vs, r3)
            | none => none
      else if c = 'n' then
        match stripLit ['u', 'l', 'l'] r with
        | some r2 => some (.null, r2)
        | none => none
      else if c = 't' then
        match stripLit ['r', 'u', 'e'] r with
        | some r2 => some (.bool true, r2)
        | none => none
      else if c = 'f' then
        match stripLit ['a', 'l', 's', 'e'] r with
        | some r2 => some (.bool false, r2)
        | none => none
      else if c = '-' then
        match parseNatNum r with
        | some (m, r2) => some (.num (-(m : Int)), r2)
        | none => none
      else if c.isDigit then
        match parseNatNum (c :: r) with
        | some (m, r2) => some (.num (m : Int), r2)
        | none => none
      else none

/-- Reading of one or more comma-separated array elements and the
closing bracket. -/
def parseElems : Nat → List Char → Option (List Json × List Char)
  | 0, _ => none
  | n + 1, cs =>
    match parseV n cs with
    | none => none
    | some (v, r) =>
      match skipWs r with
      | [] => none
      | c :: r2 =>
        if c = ']' then some ([v], r2)
        else if c = ',' then
          match parseElems n (skipWs r2) with
          | some (vs, r3) => some (v :: vs, r3)
          | none => none
        else none

/-- Reading of one or more comma-separated object members and the
closing brace. -/
def parseMems : Nat → List Char → Option (List (String × Json) × List Char)
  | 0, _ => none
  | n + 1, cs =>
    match cs with
    | [] => none
    | c :: r =>
      if c = '"' then
        match parseStrBody r with
        | none => none
        | some (k, r2) =>
          match skipWs r2 with
          | [] => none
          | d :: r3 =>
            if d = ':' then
              match parseV n (skipWs r3) with
              | none => none
              | some (v, r4) =>
                match skipWs r4 with
                | [] => none
                | e :: r5 =>
                  if e = rbraceChar then some ([(String.mk k, v)], r5)
                  else if e = ',' then
                    match parseMems n (skipWs r5) with
                    | some (ms, r6) => some ((String.mk k, v) :: ms, r6)
                    | none => none
                  else none
            else none
      else none

end

/-- Serialization entry point, the model of json.dumps. -/
def json_dumps (j : Json) : String := String.mk (dumpV j)

/-- Reading entry point, the model of json.loads: leading and trailing
whitespace is tolerated, anything else trailing is an error. -/
def json_loads (s : String) : Option Json :=
  match parseV (s.data.length + 1) (skipWs s.data) with
  | some (j, rest) => if (skipWs rest).isEmpty then some j else none
  | none => none

/-- Boundary shape of the input that can legally follow a serialized
value inside a json.dumps output: nothing, or a separator comma, or a
closing bracket or brace. -/
def Bdry (rest : List Char) : Prop :=
  rest = [] ∨ ∃ c r2, rest = c :: r2 ∧ (c = ',' ∨ c = ']' ∨ c = rbraceChar)

/-! ## Collector data model (collector/base.py)

ProcessInfo is the dataclass the collectors produce.  It deliberately
has no timestamp field: the store stamps rows itself.  Metric floats
are modelled as exact integers; the open extra_metrics dict is an
ordered association list of JSON values. -/

/-- Record of one sampled process, the model of dataclass ProcessInfo. -/
structure ProcessInfo where
  pid : Int
  name : String
  command_line : String
  user : String
  cpu_percent : Int
  memory_mb : Int
  extra_metrics : List (String × Json)

/-- Record of one system sample, the model of dataclass SystemInfo (its
timestamp is produced by the collector, modelled as a string). -/
structure SystemInfo where
  timestamp : String
  cpu_percent : Int
  memory_total_mb : Int
  memory_used_mb : Int
  memory_percent : Int
  extra_metrics : List (String × Json)

/-! ## Metrics store (database/db_manager.py)

The processes table is a list of rows; the UNIQUE(timestamp, pid)
constraint together with INSERT OR REPLACE is modelled by removing any
conflicting row before appending the new one.  The extra_metrics TEXT
column is nullable, hence Option String. -/

/-- Row of the processes table. -/
structure ProcRow where
  timestamp : String
  pid : Int
  name : String
  command_line : String
  user : String
  cpu_percent : Int
  memory_mb : Int
  extra_metrics : Option String
  deriving DecidableEq

/-- Key collision test for the UNIQUE(timestamp, pid) constraint. -/
def keyMatch (ts : String) (pid : Int) (r : ProcRow) : Bool :=
  r.timestamp == ts && r.pid == pid

/-- Row built by DatabaseManager.insert_process_info from a ProcessInfo
and the clock reading taken inside the call: the extra_metrics dict is
serialized with json.dumps when non-empty and stored as the literal
empty-object text otherwise. -/
def mkProcRow (now : String) (p : ProcessInfo) : ProcRow :=
  { timestamp := now
    pid := p.pid
    name := p.name
    command_line := p.command_line
    user := p.user
    cpu_percent := p.cpu_percent
    memory_mb := p.memory_mb
    extra_metrics :=
      some (if p.extra_metrics.isEmpty then "\x7b\x7d"
            else json_dumps (Json.obj p.extra_metrics)) }

/-- Model of DatabaseManager.insert_process_info: an INSERT OR REPLACE
keyed on (timestamp, pid), where the timestamp is the current clock
reading, not a field of the ProcessInfo argument. -/
def insert_process_info (now : String) (p : ProcessInfo) (db : List ProcRow) :
    List ProcRow :=
  db.filter (fun r => !keyMatch now p.pid r) ++ [mkProcRow now p]

/-- Value of the extra_metrics entry of a returned row dictionary: the
raw column value when it is falsy (NULL or empty text), otherwise the
parsed JSON, with a parse failure degrading to an empty mapping. -/
inductive ExtraOut where
  | raw (v : Option String) : ExtraOut
  | parsed (j : Json) : ExtraOut

/-- Row dictionary as get_process_data returns it. -/
structure ProcRowOut where
  timestamp : String
  pid : Int
  name : String
  command_line : String
  user : String
  cpu_percent : Int
  memory_mb : Int
  extra_metrics : ExtraOut

/-- Reading of the stored extra_metrics column, the model of the
post-processing loop in get_process_data: a falsy value (NULL or the
empty string) is left as it is, anything else is parsed, and a parse
failure is replaced by an empty mapping. -/
def decodeExtra (col : Option String) : ExtraOut :=
  match col with
  | none => .raw none
  | some s =>
    if s.data.isEmpty then .raw (some s)
    else
      match json_loads s with
      | some j => .parsed j
      | none => .parsed (Json.obj [])

/-- Conversion of one stored row to the returned dictionary. -/
def decodeRow (r : ProcRow) : ProcRowOut :=
  { timestamp := r.timestamp
    pid := r.pid
    name := r.name
    command_line := r.command_line
    user := r.user
    cpu_percent := r.cpu_percent
    memory_mb := r.memory_mb
    extra_metrics := decodeExtra r.extra_metrics }

/-- WHERE clause assembled by get_process_data: the supplied optional
filters are conjoined.  A pid filter applies whenever the argument is
present (Python tests it against None); the time bounds follow Python
truthiness, so an empty string disables the bound; SQLite compares the
TEXT columns byte-wise. -/
def procPred (pid? : Option Int) (name? : Option String)
    (start? end? : Option String) (r : ProcRow) : Bool :=
  (match pid? with
   | some p => r.pid == p
   | none => true) &&
  (match name? with
   | some n => r.name == n
   | none => true) &&
  (match start? with
   | some s => if s.data.isEmpty then true else tsLeB s r.timestamp
   | none => true) &&
  (match end? with
   | some e => if e.data.isEmpty then true else tsLeB r.timestamp e
   | none => true)

/-- Ascending-timestamp relation used by ORDER BY timestamp. -/
def rowLe (a b : ProcRow) : Prop := tsLeB a.timestamp b.timestamp = true

instance : DecidableRel rowLe := fun _ _ =>
  inferInstanceAs (Decidable (_ = true))

/-- Model of DatabaseManager.get_process_data: filter with the conjoined
optional predicates, order ascending by timestamp, and decode the
extra_metrics column of every returned row. -/
def get_process_data (pid? : Option Int) (name? : Option String)
    (start? end? : Option String) (db : List ProcRow) : List ProcRowOut :=
  ((db.filter (procPred pid? name? start? end?)).insertionSort rowLe).map decodeRow

/-- Model of DatabaseManager.get_all_pids: SELECT DISTINCT pid with an
optional exact name filter (Python truthiness again: an empty name
string disables the filter), ordered ascending by pid. -/
def get_all_pids (name? : Option String) (db : List ProcRow) : List Int :=
  List.insertionSort (· ≤ ·)
    ((match name? with
      | some n => if n.data.isEmpty then db else db.filter (fun r => r.name == n)
      | none => db).map (fun r : ProcRow => r.pid)).dedup

/-! ## Configuration manager (config/config_manager.py)

Only save_config matters to the claims.  The filesystem is a map from
path to optional file content; save_config is modelled as the sequence
of filesystem states its statements produce: write the temp file,
unlink the target when it exists, then move the temp file over the
target. -/

/-- Filesystem model: each path holds a content or is absent. -/
def FileSys : Type := String → Option String

/-- Update of one path of the filesystem. -/
def fsSet (fs : FileSys) (p : String) (v : Option String) : FileSys :=
  fun q => if q = p then v else fs q

/-- Model of ConfigManager.save_config on the happy path: the list of
filesystem states the save passes through, in program order.  The
second step is the explicit unlink of the existing target that the
source performs before shutil.move. -/
def save_config_states (configPath : String) (doc : String) (fs0 : FileSys) :
    List FileSys :=
  let tmp := configPath ++ ".tmp"
  let fs1 := fsSet fs0 tmp (some doc)
  let fs2 := if (fs1 configPath).isSome then fsSet fs1 configPath none else fs1
  let fs3 := fsSet (fsSet fs2 configPath (some doc)) tmp none
  [fs0, fs1, fs2, fs3]

/-! ## Monitor window (ui/monitor_window.py)

The watch-list table is a list of display strings.  load_config
de-duplicates the configured list case-insensitively keeping the first
occurrence; add_process strips the input and refuses duplicates up to
case.  The running-process table is refreshed incrementally. -/

/-- Case-insensitive de-duplication keeping the first occurrence, the
model of the seen-set loops in load_config and
refresh_running_processes. -/
def dedupeFirst (seen : List (List Char)) : List String → List String
  | [] => []
  | x :: xs =>
    if lowerS x ∈ seen then dedupeFirst seen xs
    else x :: dedupeFirst (lowerS x :: seen) xs

/-- Watch-list produced by MonitorWindow.load_config from the
configured monitored_processes list. -/
def load_watchlist (cfg : List String) : List String := dedupeFirst [] cfg

/-- Model of MonitorWindow.add_process: strip the input, refuse empty
input, refuse a case-insensitive duplicate, else append the stripped
name. -/
def add_process (table : List String) (inputText : String) : List String :=
  if (String.mk (trimL inputText.data)).data.isEmpty then table
  else if table.any
      (fun e => lowerS e == lowerS (String.mk (trimL inputText.data))) then table
  else table ++ [String.mk (trimL inputText.data)]

/-- Operations that mutate the watch-list table. -/
inductive WatchOp where
  | load (cfg : List String) : WatchOp
  | add (inputText : String) : WatchOp

/-- One watch-list mutation. -/
def watch_step (table : List String) : WatchOp → List String
  | .load cfg => load_watchlist cfg
  | .add inputText => add_process table inputText

/-- Watch-list after a sequence of loads and additions, starting from
the empty table the window opens with. -/
def watch_run (ops : List WatchOp) : List String :=
  ops.foldl watch_step []

/-- Case-insensitive distinctness of the watch-list entries. -/
def ciDistinct (l : List String) : Prop :=
  l.Pairwise (fun a b => lowerS a ≠ lowerS b)

/-- Distinct live process names, first-seen casing kept, sorted by
lower-cased name, as refresh_running_processes computes unique_names. -/
def unique_names (live : List String) : List String :=
  List.insertionSort (fun a b => leChars (lowerS a) (lowerS b) = true)
    (dedupeFirst [] live)

/-- Lower-cased names scheduled for removal: present in the table and
absent from the live set. -/
def names_to_remove (table live : List String) : List (List Char) :=
  (table.map lowerS).filter (fun n => !((unique_names live).map lowerS).contains n)

/-- Lower-cased names scheduled for insertion: live and absent from the
table. -/
def names_to_add (table live : List String) : List (List Char) :=
  ((unique_names live).map lowerS).filter (fun n => !(table.map lowerS).contains n)

/-- Names the refresher emits as additions, in unique_names order. -/
def refresh_adds (table live : List String) : List String :=
  (unique_names live).filter (fun n => (names_to_add table live).contains (lowerS n))

/-- Rows the refresher removes from the table. -/
def refresh_removes (table live : List String) : List String :=
  table.filter (fun r => (names_to_remove table live).contains (lowerS r))

/-- Insertion of one name before the first row that sorts above it
(case-insensitively), the model of the insert-position search. -/
def insertSortedCI (t : List String) (nm : String) : List String :=
  match t with
  | [] => [nm]
  | x :: xs =>
    if leChars (lowerS x) (lowerS nm) then x :: insertSortedCI xs nm
    else nm :: x :: xs

/-- Table contents after one refresher tick: rows of vanished names
removed, new names inserted at their sorted positions. -/
def refresh_table (table live : List String) : List String :=
  (refresh_adds table live).foldl insertSortedCI
    (table.filter (fun r => !(names_to_remove table live).contains (lowerS r)))

/-! ## Monitor loop (ui/monitor_window.py, monitor_loop)

One tick of the periodic phase touches four collaborators, any of which
may raise; the loop body wraps the whole tick and sleeps the normal
interval on both the success and the failure path. -/

/-- Collaborators of one tick, each allowed to raise. -/
structure TickEnv where
  getProcessesByName : String → Except String (List ProcessInfo)
  insertProcessInfo : ProcessInfo → Except String Unit
  getSystemInfo : Except String SystemInfo
  insertSystemInfo : SystemInfo → Except String Unit

/-- Body of one tick of monitor_loop: resolve every watched name,
record every resolved process, then record one system sample.  Any
raise aborts the rest of the body (and is caught by the loop). -/
def tick_body (env : TickEnv) (monitoredNames : List String) :
    Except String Unit := do
  let processesToRecord ← monitoredNames.foldlM
    (fun acc nm => do
      let procs ← env.getProcessesByName nm
      pure (acc ++ procs))
    ([] : List ProcessInfo)
  if processesToRecord.isEmpty then pure ()
  else processesToRecord.forM env.insertProcessInfo
  let si ← env.getSystemInfo
  env.insertSystemInfo si

/-- One iteration of the while loop: when monitoring is still on, run
the tick body under the catch-all handler and sleep the interval on
either outcome; when monitoring is off, exit the loop. -/
def monitor_iter (monitoring : Bool) (interval : Nat) (env : TickEnv)
    (names : List String) : Option Nat :=
  if monitoring then
    some (match tick_body env names with
          | .ok _ => interval
          | .error _ => interval)
  else none

/-- Sleep schedule of the loop over a stream of tick environments while
monitoring stays on. -/
def monitor_loop_sleeps (interval : Nat) (names : List String) :
    List TickEnv → List Nat
  | [] => []
  | env :: rest =>
    match monitor_iter true interval env names with
    | some t => t :: monitor_loop_sleeps interval names rest
    | none => []

/-! ## Analyzer window (ui/analyzer_window.py)

sample_data decimates a series to at most max_points points by
fixed-stride index selection.  Python computes the stride
len(data) / max_points and each index int(i * step) in IEEE-754
binary64 arithmetic, so the model rounds every intermediate value to
binary64: flq is round to nearest, ties to even, at 53-bit precision,
exact for the magnitudes the sampler produces (zero, and values of at
least one far below the overflow threshold). -/

/-- Fuel-driven floor of the base-two logarithm of a natural number. -/
def log2F : Nat → Nat → Nat
  | 0, _ => 0
  | fuel + 1, n => if n < 2 then 0 else log2F fuel (n / 2) + 1

/-- Floor of the base-two logarithm: for 1 ≤ n, 2 ^ nlog2 n ≤ n < 2 ^ (nlog2 n + 1). -/
def nlog2 (n : Nat) : Nat := log2F n n

/-- Binade exponent of a rational that is at least one. -/
def qexp (q : ℚ) : Nat := nlog2 ⌊q⌋.toNat

/-- Spacing of consecutive binary64 values in the binade of q: the
significand has 52 fractional bits, so neighbours differ by 2^qexp/2^52. -/
def qulp (q : ℚ) : ℚ := 2 ^ qexp q / 2 ^ 52

/-- Binary64 rounding of a nonnegative rational: round to the nearest
multiple of the ulp, ties to the even significand.  Arguments below one
are returned unchanged (the sampler only feeds the exact zero there). -/
def flq (q : ℚ) : ℚ :=
  if q < 1 then q
  else if 2 * (q - ⌊q / qulp q⌋ * qulp q) < qulp q then ⌊q / qulp q⌋ * qulp q
  else if qulp q < 2 * (q - ⌊q / qulp q⌋ * qulp q) then (⌊q / qulp q⌋ + 1) * qulp q
  else if ⌊q / qulp q⌋ % 2 = 0 then ⌊q / qulp q⌋ * qulp q
  else (⌊q / qulp q⌋ + 1) * qulp q

/-- Binary64 value of the Python expression len(data) / max_points:
integer true division is correctly rounded. -/
def pydiv (L M : Nat) : ℚ := flq ((L : ℚ) / (M : ℚ))

/-- Binary64 value of the Python expression i * step: the int i is
converted to binary64, then the product is rounded. -/
def pymul (i : Nat) (s : ℚ) : ℚ := flq (flq (i : ℚ) * s)

/-- Index selected by AnalyzerWindow.sample_data for position i:
int(i * step), truncation of the nonnegative binary64 product. -/
def pyIdx (L M i : Nat) : Nat := ⌊pymul i (pydiv L M)⌋.toNat

/-- Indices selected by AnalyzerWindow.sample_data for a series of
length len and budget maxPoints. -/
def sample_indices (len maxPoints : Nat) : List Nat :=
  (List.range maxPoints).map (fun i => pyIdx len maxPoints i)

/-- Model of AnalyzerWindow.sample_data: a series within the budget is
returned unchanged, a longer one is decimated to the selected
indices. -/
def sample_data {α : Type} (data : List α) (maxPoints : Nat) : List α :=
  if data.length ≤ maxPoints then data
  else (sample_indices data.length maxPoints).filterMap (fun i => data[i]?)

/-! ## Concrete demonstration values used by closed theorems -/

/-- Sample process record with a non-trivial extra_metrics mapping. -/
def demoProc : ProcessInfo :=
  ⟨3, "chrome", "/opt/chrome", "user", 12, 345,
    [("num_threads", .num 7), ("io_read_bytes", .num 123456), ("note", .str "hi")]⟩

/-- Stored row whose name is capitalized. -/
def chromeRow : ProcRow :=
  ⟨"2025-01-01T00:00:00", 7, "Chrome", "/opt/chrome", "user", 1, 2, some "\x7b\x7d"⟩

/-- Stored row whose extra_metrics column is the empty string. -/
def rawColRow : ProcRow :=
  ⟨"2025-01-01T00:00:00", 9, "x", "", "", 0, 0, some ""⟩

/-- Stored row used by closed query theorems. -/
def demoRowA : ProcRow :=
  ⟨"2025-01-01T00:00:01", 1, "chrome", "/opt/chrome", "user", 5, 50, some "\x7b\x7d"⟩

/-- Filesystem holding an old configuration document at config.json. -/
def demoConfigFs : FileSys :=
  fun p => if p = "config.json" then some "old" else none

/-! ## Helper lemmas -/

theorem length_filterMap_isSome {α β : Type} (f : α → Option β) (l : List α)
    (h : ∀ a ∈ l, (f a).isSome) : (l.filterMap f).length = l.length := by
  induction l with
  | nil => rfl
  | cons a l ih =>
    have ha := h a (List.mem_cons_self a l)
    obtain ⟨b, hb⟩ := Option.isSome_iff_exists.mp ha
    have := ih (fun x hx => h x (List.mem_cons_of_mem a hx))
    simp [List.filterMap_cons, hb, this]

theorem log2F_spec (fuel : Nat) : ∀ n : Nat, 1 ≤ n → n ≤ fuel →
    2 ^ log2F fuel n ≤ n ∧ n < 2 ^ (log2F fuel n + 1) := by
  induction fuel with
  | zero => intro n h1 h2; omega
  | succ fuel ih =>
    intro n h1 h2
    rw [log2F]
    by_cases hn : n < 2
    · rw [if_pos hn]; simpa using ⟨h1, hn⟩
    · rw [if_neg hn]
      have h2' : n / 2 ≤ fuel := by omega
      have h1' : 1 ≤ n / 2 := by omega
      obtain ⟨ha, hb⟩ := ih (n / 2) h1' h2'
      constructor
      · have : 2 ^ (log2F fuel (n / 2) + 1) = 2 * 2 ^ log2F fuel (n / 2) := by ring
        omega
      · have : 2 ^ (log2F fuel (n / 2) + 1 + 1) = 2 * 2 ^ (log2F fuel (n / 2) + 1) := by ring
        omega

theorem nlog2_spec (n : Nat) (h : 1 ≤ n) :
    2 ^ nlog2 n ≤ n ∧ n < 2 ^ (nlog2 n + 1) :=
  log2F_spec n n h le_rfl

theorem floor_toNat_pos (q : ℚ) (h1 : 1 ≤ q) : 1 ≤ ⌊q⌋.toNat := by
  have : (1 : ℤ) ≤ ⌊q⌋ := Int.le_floor.mpr (by exact_mod_cast h1)
  omega

theorem two_pow_qexp_le (q : ℚ) (h1 : 1 ≤ q) : (2 : ℚ) ^ qexp q ≤ q := by
  have h := (nlog2_spec ⌊q⌋.toNat (floor_toNat_pos q h1)).1
  have hq0 : (0 : ℤ) ≤ ⌊q⌋ := Int.le_floor.mpr (by exact_mod_cast le_trans zero_le_one h1)
  have hcast : ((2 ^ qexp q : Nat) : ℚ) ≤ ((⌊q⌋.toNat : Nat) : ℚ) := by exact_mod_cast h
  have hfl : ((⌊q⌋.toNat : Nat) : ℚ) = ((⌊q⌋ : ℤ) : ℚ) := by
    exact_mod_cast congrArg (fun z : ℤ => (z : ℚ)) (Int.toNat_of_nonneg hq0)
  calc (2 : ℚ) ^ qexp q = ((2 ^ qexp q : Nat) : ℚ) := by push_cast; ring
    _ ≤ ((⌊q⌋ : ℤ) : ℚ) := by rw [← hfl]; exact hcast
    _ ≤ q := Int.floor_le q

theorem lt_two_pow_qexp (q : ℚ) (h1 : 1 ≤ q) : q < (2 : ℚ) ^ (qexp q + 1) := by
  have h := (nlog2_spec ⌊q⌋.toNat (floor_toNat_pos q h1)).2
  have hq0 : (0 : ℤ) ≤ ⌊q⌋ := Int.le_floor.mpr (by exact_mod_cast le_trans zero_le_one h1)
  have hz : ⌊q⌋ < (2 : ℤ) ^ (qexp q + 1) := by
    have : (⌊q⌋.toNat : ℤ) < ((2 ^ (qexp q + 1) : Nat) : ℤ) := by exact_mod_cast h
    rw [Int.toNat_of_nonneg hq0] at this
    exact_mod_cast this
  have : ⌊q⌋ + 1 ≤ (2 : ℤ) ^ (qexp q + 1) := hz
  calc q < (⌊q⌋ : ℚ) + 1 := Int.lt_floor_add_one q
    _ ≤ (((2 : ℤ) ^ (qexp q + 1) : ℤ) : ℚ) := by exact_mod_cast this
    _ = (2 : ℚ) ^ (qexp q + 1) := by push_cast; ring

theorem qexp_le_52 (q : ℚ) (h1 : 1 ≤ q) (h53 : q < 2 ^ 53) : qexp q ≤ 52 := by
  by_contra hgt
  have h53le : 53 ≤ qexp q := by omega
  have : (2 : ℚ) ^ 53 ≤ (2 : ℚ) ^ qexp q :=
    pow_le_pow_right₀ (by norm_num) h53le
  have := lt_of_le_of_lt (le_trans this (two_pow_qexp_le q h1)) h53
  exact absurd this (lt_irrefl _)

theorem qulp_pos (q : ℚ) : 0 < qulp q := by
  rw [qulp]; positivity

theorem qulp_inv (q : ℚ) (h1 : 1 ≤ q) (h53 : q < 2 ^ 53) :
    qulp q = ((2 ^ (52 - qexp q) : Nat) : ℚ)⁻¹ := by
  have he := qexp_le_52 q h1 h53
  have hkey : (2 : ℚ) ^ qexp q * (2 : ℚ) ^ (52 - qexp q) = 2 ^ 52 := by
    rw [← pow_add]; congr 1; omega
  have hm : ((2 ^ (52 - qexp q) : Nat) : ℚ) = (2 : ℚ) ^ (52 - qexp q) := by
    push_cast; ring
  rw [qulp, hm, inv_eq_one_div,
    div_eq_div_iff (ne_of_gt (by positivity)) (ne_of_gt (by positivity))]
  rw [one_mul, ← pow_add]; congr 1; omega

theorem qulp_le (q : ℚ) (h1 : 1 ≤ q) : qulp q ≤ q / 2 ^ 52 := by
  rw [qulp]
  gcongr
  exact two_pow_qexp_le q h1

theorem flq_below_one (q : ℚ) (h : q < 1) : flq q = q := by
  rw [flq, if_pos h]

theorem flq_zero : flq 0 = 0 := flq_below_one 0 (by norm_num)

theorem flq_cases (q : ℚ) (h1 : 1 ≤ q) :
    (flq q = (⌊q / qulp q⌋ : ℚ) * qulp q ∧
      2 * (q - (⌊q / qulp q⌋ : ℚ) * qulp q) ≤ qulp q) ∨
    (flq q = ((⌊q / qulp q⌋ : ℚ) + 1) * qulp q ∧
      qulp q ≤ 2 * (q - (⌊q / qulp q⌋ : ℚ) * qulp q)) := by
  rw [flq, if_neg (not_lt.mpr h1)]
  split_ifs with h2 h3 h4
  · exact Or.inl ⟨by ring, le_of_lt h2⟩
  · exact Or.inr ⟨by ring, le_of_lt h3⟩
  · exact Or.inl ⟨by ring, not_lt.mp h3⟩
  · exact Or.inr ⟨by ring, not_lt.mp h2⟩

theorem floor_mul_ulp_le (q : ℚ) : (⌊q / qulp q⌋ : ℚ) * qulp q ≤ q := by
  have hu := qulp_pos q
  have h := Int.floor_le (q / qulp q)
  calc (⌊q / qulp q⌋ : ℚ) * qulp q ≤ q / qulp q * qulp q :=
        mul_le_mul_of_nonneg_right h (le_of_lt hu)
    _ = q := div_mul_cancel₀ q (ne_of_gt hu)

theorem lt_floor_succ_mul_ulp (q : ℚ) : q < ((⌊q / qulp q⌋ : ℚ) + 1) * qulp q := by
  have hu := qulp_pos q
  have h := Int.lt_floor_add_one (q / qulp q)
  calc q = q / qulp q * qulp q := (div_mul_cancel₀ q (ne_of_gt hu)).symm
    _ < ((⌊q / qulp q⌋ : ℚ) + 1) * qulp q := by
        exact mul_lt_mul_of_pos_right (by linarith) hu

theorem flq_ge_down (q : ℚ) (h1 : 1 ≤ q) :
    (⌊q / qulp q⌋ : ℚ) * qulp q ≤ flq q := by
  rcases flq_cases q h1 with ⟨h, _⟩ | ⟨h, _⟩
  · exact h.ge
  · rw [h]; nlinarith [qulp_pos q]

theorem flq_le_up (q : ℚ) (h1 : 1 ≤ q) :
    flq q ≤ ((⌊q / qulp q⌋ : ℚ) + 1) * qulp q := by
  rcases flq_cases q h1 with ⟨h, _⟩ | ⟨h, _⟩
  · rw [h]; nlinarith [qulp_pos q]
  · exact h.le

theorem flq_nonneg (q : ℚ) (h : 0 ≤ q) : 0 ≤ flq q := by
  by_cases hlt : q < 1
  · rw [flq_below_one q hlt]; exact h
  · have h1 : 1 ≤ q := not_lt.mp hlt
    refine le_trans ?_ (flq_ge_down q h1)
    have hu := qulp_pos q
    have hn : (0 : ℤ) ≤ ⌊q / qulp q⌋ := Int.floor_nonneg.mpr (by positivity)
    exact mul_nonneg (by exact_mod_cast hn) (le_of_lt hu)

theorem flq_le_add_half (q : ℚ) (h1 : 1 ≤ q) : flq q ≤ q + qulp q / 2 := by
  rcases flq_cases q h1 with ⟨h, _⟩ | ⟨h, hle⟩
  · rw [h]
    have h2 := floor_mul_ulp_le q
    have h3 := qulp_pos q
    linarith
  · rw [h]; linarith

theorem floor_le_floor_mul_div (q : ℚ) (m : ℕ) (hm : 0 < m) :
    (⌊q⌋ : ℚ) ≤ (⌊q * (m : ℚ)⌋ : ℚ) / (m : ℚ) := by
  have hm0 : (0 : ℚ) < (m : ℚ) := by exact_mod_cast hm
  rw [le_div_iff₀ hm0]
  have key : (⌊q⌋ * (m : ℤ) : ℤ) ≤ ⌊q * (m : ℚ)⌋ := by
    apply Int.le_floor.mpr
    push_cast
    exact mul_le_mul_of_nonneg_right (Int.floor_le q) (by positivity)
  calc (⌊q⌋ : ℚ) * (m : ℚ) = ((⌊q⌋ * (m : ℤ) : ℤ) : ℚ) := by push_cast; ring
    _ ≤ (⌊q * (m : ℚ)⌋ : ℚ) := by exact_mod_cast key

theorem floor_mul_div_succ_le (q : ℚ) (m : ℕ) (hm : 0 < m) :
    ((⌊q * (m : ℚ)⌋ : ℚ) + 1) / (m : ℚ) ≤ (⌊q⌋ : ℚ) + 1 := by
  have hm0 : (0 : ℚ) < (m : ℚ) := by exact_mod_cast hm
  rw [div_le_iff₀ hm0]
  have key : ⌊q * (m : ℚ)⌋ < (⌊q⌋ + 1) * (m : ℤ) := by
    apply Int.floor_lt.mpr
    push_cast
    exact mul_lt_mul_of_pos_right (Int.lt_floor_add_one q) hm0
  have key2 : ⌊q * (m : ℚ)⌋ + 1 ≤ (⌊q⌋ + 1) * (m : ℤ) := key
  calc (⌊q * (m : ℚ)⌋ : ℚ) + 1 = ((⌊q * (m : ℚ)⌋ + 1 : ℤ) : ℚ) := by push_cast; ring
    _ ≤ (((⌊q⌋ + 1) * (m : ℤ) : ℤ) : ℚ) := by exact_mod_cast key2
    _ = ((⌊q⌋ : ℚ) + 1) * (m : ℚ) := by push_cast; ring

theorem div_qulp_eq (q : ℚ) (h1 : 1 ≤ q) (h53 : q < 2 ^ 53) :
    q / qulp q = q * ((2 ^ (52 - qexp q) : Nat) : ℚ) := by
  rw [qulp_inv q h1 h53, div_inv_eq_mul]

theorem floor_le_flq (q : ℚ) (h1 : 1 ≤ q) (h53 : q < 2 ^ 53) :
    (⌊q⌋ : ℚ) ≤ flq q := by
  refine le_trans ?_ (flq_ge_down q h1)
  rw [div_qulp_eq q h1 h53, qulp_inv q h1 h53, ← div_eq_mul_inv]
  exact floor_le_floor_mul_div q _ (Nat.two_pow_pos _)

theorem flq_le_floor_succ (q : ℚ) (h1 : 1 ≤ q) (h53 : q < 2 ^ 53) :
    flq q ≤ (⌊q⌋ : ℚ) + 1 := by
  refine le_trans (flq_le_up q h1) ?_
  rw [div_qulp_eq q h1 h53, qulp_inv q h1 h53]
  have h := floor_mul_div_succ_le q (2 ^ (52 - qexp q)) (Nat.two_pow_pos _)
  rw [div_eq_mul_inv] at h
  exact h

theorem flq_natCast (k : ℕ) (h53 : (k : ℚ) < 2 ^ 53) : flq (k : ℚ) = k := by
  rcases Nat.eq_zero_or_pos k with h0 | hk
  · subst h0; simpa using flq_zero
  · have h1 : (1 : ℚ) ≤ k := by exact_mod_cast hk
    have harg : (k : ℚ) / qulp (k : ℚ) = (k : ℚ) * ((2 ^ (52 - qexp (k : ℚ)) : Nat) : ℚ) :=
      div_qulp_eq _ h1 h53
    have hfloor : ⌊(k : ℚ) / qulp (k : ℚ)⌋ = ((k * 2 ^ (52 - qexp (k : ℚ)) : Nat) : ℤ) := by
      rw [harg,
        show (k : ℚ) * ((2 ^ (52 - qexp (k : ℚ)) : Nat) : ℚ)
          = ((k * 2 ^ (52 - qexp (k : ℚ)) : Nat) : ℚ) from by push_cast; ring]
      exact_mod_cast Int.floor_natCast _
    have hm0 : ((2 ^ (52 - qexp (k : ℚ)) : Nat) : ℚ) ≠ 0 := by
      have : (0 : ℚ) < ((2 ^ (52 - qexp (k : ℚ)) : Nat) : ℚ) := by
        exact_mod_cast Nat.two_pow_pos (52 - qexp (k : ℚ))
      exact ne_of_gt this
    have hval : (⌊(k : ℚ) / qulp (k : ℚ)⌋ : ℚ) * qulp (k : ℚ) = k := by
      rw [hfloor, qulp_inv _ h1 h53]
      push_cast
      field_simp
    rw [flq, if_neg (not_lt.mpr h1), hval]
    rw [if_pos (show (2 : ℚ) * ((k : ℚ) - (k : ℚ)) < qulp (k : ℚ) from by
      simpa using qulp_pos (k : ℚ))]

theorem flq_intCast (z : ℤ) (h0 : 0 ≤ z) (h53 : (z : ℚ) < 2 ^ 53) : flq (z : ℚ) = z := by
  lift z to ℕ using h0
  rw [show ((z : ℤ) : ℚ) = (z : ℚ) from by push_cast; ring]
  exact_mod_cast flq_natCast z (by exact_mod_cast h53)

theorem qexp_mono (q y : ℚ) (h1 : 1 ≤ q) (hqy : q ≤ y) : qexp q ≤ qexp y := by
  have h1y : 1 ≤ y := le_trans h1 hqy
  by_contra hgt
  have ha := two_pow_qexp_le q h1
  have hb := lt_two_pow_qexp y h1y
  have hc : (2 : ℚ) ^ (qexp y + 1) ≤ 2 ^ qexp q :=
    pow_le_pow_right₀ (by norm_num) (by omega)
  linarith

theorem qulp_mono (q y : ℚ) (h1 : 1 ≤ q) (hqy : q ≤ y) : qulp q ≤ qulp y := by
  rw [qulp, qulp]
  gcongr
  · norm_num
  · exact qexp_mono q y h1 hqy

theorem qulp_le_one (q : ℚ) (h1 : 1 ≤ q) (h53 : q < 2 ^ 53) : qulp q ≤ 1 := by
  rw [qulp_inv q h1 h53]
  have h : (1 : ℚ) ≤ ((2 ^ (52 - qexp q) : Nat) : ℚ) := by
    exact_mod_cast Nat.one_le_two_pow
  exact inv_le_one_of_one_le₀ h

theorem floor_flq_mul_lt (s : ℚ) (i : ℕ) (hs : 1 ≤ s)
    (hbig : ((i : ℚ) + 1) * s < 2 ^ 53) :
    ⌊flq ((i : ℚ) * s)⌋ < ⌊flq (((i : ℚ) + 1) * s)⌋ := by
  have hs0 : (0 : ℚ) < s := lt_of_lt_of_le one_pos hs
  rcases Nat.eq_zero_or_pos i with h0 | hipos
  · subst h0
    rw [Nat.cast_zero, zero_mul, flq_zero, zero_add, one_mul]
    have hs53 : s < 2 ^ 53 := by
      rw [Nat.cast_zero, zero_add, one_mul] at hbig
      exact hbig
    have hfl : (⌊s⌋ : ℚ) ≤ flq s := floor_le_flq s hs hs53
    have h1z : (1 : ℤ) ≤ ⌊s⌋ := Int.le_floor.mpr (by exact_mod_cast hs)
    have h1fl : (1 : ℤ) ≤ ⌊flq s⌋ := by
      apply Int.le_floor.mpr
      calc ((1 : ℤ) : ℚ) ≤ (⌊s⌋ : ℚ) := by exact_mod_cast h1z
        _ ≤ flq s := hfl
    rw [Int.floor_zero]
    omega
  · have hi1 : (1 : ℚ) ≤ (i : ℚ) := by exact_mod_cast hipos
    have hq1 : 1 ≤ (i : ℚ) * s := by nlinarith
    have hqy : (i : ℚ) * s + s = ((i : ℚ) + 1) * s := by ring
    have hq_lt_y : (i : ℚ) * s < ((i : ℚ) + 1) * s := by nlinarith
    have hy53 : ((i : ℚ) + 1) * s < 2 ^ 53 := hbig
    have hq53 : (i : ℚ) * s < 2 ^ 53 := lt_trans hq_lt_y hy53
    have hy1 : 1 ≤ ((i : ℚ) + 1) * s := le_trans hq1 (le_of_lt hq_lt_y)
    have hyfl : ⌊((i : ℚ) + 1) * s⌋ ≤ ⌊flq (((i : ℚ) + 1) * s)⌋ := by
      apply Int.le_floor.mpr
      exact floor_le_flq _ hy1 hy53
    have hfloor_step : ⌊(i : ℚ) * s⌋ + 1 ≤ ⌊((i : ℚ) + 1) * s⌋ := by
      apply Int.le_floor.mpr
      push_cast
      have h := Int.floor_le ((i : ℚ) * s)
      nlinarith
    by_cases hint : (⌊(i : ℚ) * s⌋ : ℚ) = (i : ℚ) * s
    · have hflq : flq ((i : ℚ) * s) = (i : ℚ) * s := by
        rw [← hint]
        exact flq_intCast ⌊(i : ℚ) * s⌋
          (Int.floor_nonneg.mpr (by linarith)) (by rw [hint]; exact hq53)
      rw [hflq]
      omega
    · have hqlt : (⌊(i : ℚ) * s⌋ : ℚ) < (i : ℚ) * s :=
        lt_of_le_of_ne (Int.floor_le _) hint
      by_cases hup : ⌊flq ((i : ℚ) * s)⌋ ≤ ⌊(i : ℚ) * s⌋
      · omega
      · have hK1 : ⌊(i : ℚ) * s⌋ + 1 ≤ ⌊flq ((i : ℚ) * s)⌋ := by omega
        have hKle : ((⌊(i : ℚ) * s⌋ : ℚ) + 1) ≤ flq ((i : ℚ) * s) := by
          have h := Int.floor_le (flq ((i : ℚ) * s))
          have h2 : ((⌊(i : ℚ) * s⌋ + 1 : ℤ) : ℚ) ≤ (⌊flq ((i : ℚ) * s)⌋ : ℚ) := by
            exact_mod_cast hK1
          push_cast at h2
          linarith
        have hKeq : flq ((i : ℚ) * s) = (⌊(i : ℚ) * s⌋ : ℚ) + 1 :=
          le_antisymm (flq_le_floor_succ _ hq1 hq53) hKle
        have hdist : 2 * ((⌊(i : ℚ) * s⌋ : ℚ) + 1 - (i : ℚ) * s) ≤ qulp ((i : ℚ) * s) := by
          rcases flq_cases _ hq1 with ⟨hc, _⟩ | ⟨hc, hc2⟩
          · exfalso
            have hle := floor_mul_ulp_le ((i : ℚ) * s)
            rw [hKeq] at hc
            have := Int.lt_floor_add_one ((i : ℚ) * s)
            linarith [hc ▸ hle]
          · have hKnu : ((⌊(i : ℚ) * s / qulp ((i : ℚ) * s)⌋ : ℚ) + 1) * qulp ((i : ℚ) * s)
                = (⌊(i : ℚ) * s⌋ : ℚ) + 1 := by rw [← hc, hKeq]
            have hexp : ((⌊(i : ℚ) * s / qulp ((i : ℚ) * s)⌋ : ℚ) + 1) * qulp ((i : ℚ) * s)
                = (⌊(i : ℚ) * s / qulp ((i : ℚ) * s)⌋ : ℚ) * qulp ((i : ℚ) * s)
                  + qulp ((i : ℚ) * s) := by ring
            linarith [hKnu, hexp, hc2]
        by_cases hyK : (⌊(i : ℚ) * s⌋ : ℚ) + 2 ≤ ((i : ℚ) + 1) * s
        · have hy2 : ⌊(i : ℚ) * s⌋ + 2 ≤ ⌊((i : ℚ) + 1) * s⌋ :=
            Int.le_floor.mpr (by push_cast; linarith)
          have hfq : ⌊flq ((i : ℚ) * s)⌋ = ⌊(i : ℚ) * s⌋ + 1 := by
            rw [hKeq,
              show (⌊(i : ℚ) * s⌋ : ℚ) + 1 = ((⌊(i : ℚ) * s⌋ + 1 : ℤ) : ℚ) from by
                push_cast; ring,
              Int.floor_intCast]
          omega
        · have hyKlt : ((i : ℚ) + 1) * s < (⌊(i : ℚ) * s⌋ : ℚ) + 2 := not_le.mp hyK
          have hy_lb : (⌊(i : ℚ) * s⌋ : ℚ) + 2 - qulp ((i : ℚ) * s) / 2
              ≤ ((i : ℚ) + 1) * s := by linarith [hqy, hdist]
          have huu : qulp ((i : ℚ) * s) ≤ qulp (((i : ℚ) + 1) * s) :=
            qulp_mono _ _ hq1 (le_of_lt hq_lt_y)
          have hu_pos := qulp_pos ((i : ℚ) * s)
          have huy_pos := qulp_pos (((i : ℚ) + 1) * s)
          have hn : (⌊((i : ℚ) + 1) * s / qulp (((i : ℚ) + 1) * s)⌋ : ℚ)
              * qulp (((i : ℚ) + 1) * s)
              = (⌊(i : ℚ) * s⌋ : ℚ) + 2 - qulp (((i : ℚ) + 1) * s) := by
            have harg := div_qulp_eq (((i : ℚ) + 1) * s) hy1 hy53
            have hui := qulp_inv (((i : ℚ) + 1) * s) hy1 hy53
            have hm0 : (0 : ℚ) < ((2 ^ (52 - qexp (((i : ℚ) + 1) * s)) : Nat) : ℚ) := by
              exact_mod_cast Nat.two_pow_pos _
            have hy_ge : (⌊(i : ℚ) * s⌋ : ℚ) + 2
                - ((2 ^ (52 - qexp (((i : ℚ) + 1) * s)) : Nat) : ℚ)⁻¹
                ≤ ((i : ℚ) + 1) * s := by
              rw [← hui]; linarith [hy_lb, huu]
            have hlo : ((⌊(i : ℚ) * s⌋ + 2) * ((2 ^ (52 - qexp (((i : ℚ) + 1) * s)) : Nat) : ℤ)
                - 1 : ℤ) ≤ ⌊((i : ℚ) + 1) * s
                  * ((2 ^ (52 - qexp (((i : ℚ) + 1) * s)) : Nat) : ℚ)⌋ := by
              apply Int.le_floor.mpr
              have hstep : ((⌊(i : ℚ) * s⌋ : ℚ) + 2
                  - ((2 ^ (52 - qexp (((i : ℚ) + 1) * s)) : Nat) : ℚ)⁻¹)
                  * ((2 ^ (52 - qexp (((i : ℚ) + 1) * s)) : Nat) : ℚ)
                  = ((⌊(i : ℚ) * s⌋ : ℚ) + 2)
                    * ((2 ^ (52 - qexp (((i : ℚ) + 1) * s)) : Nat) : ℚ) - 1 := by
                field_simp
              have hmul := mul_le_mul_of_nonneg_right hy_ge (le_of_lt hm0)
              rw [hstep] at hmul
              push_cast at hmul ⊢
              linarith
            have hhi : ⌊((i : ℚ) + 1) * s
                * ((2 ^ (52 - qexp (((i : ℚ) + 1) * s)) : Nat) : ℚ)⌋
                < (⌊(i : ℚ) * s⌋ + 2) * ((2 ^ (52 - qexp (((i : ℚ) + 1) * s)) : Nat) : ℤ) := by
              apply Int.floor_lt.mpr
              push_cast
              have hm1 : (0 : ℚ) < (2 : ℚ) ^ (52 - qexp (((i : ℚ) + 1) * s)) := by
                positivity
              exact mul_lt_mul_of_pos_right (by linarith) hm1
            have hfix : ⌊((i : ℚ) + 1) * s
                * ((2 ^ (52 - qexp (((i : ℚ) + 1) * s)) : Nat) : ℚ)⌋
                = (⌊(i : ℚ) * s⌋ + 2) * ((2 ^ (52 - qexp (((i : ℚ) + 1) * s)) : Nat) : ℤ)
                  - 1 := by omega
            rw [harg, hfix, hui]
            push_cast
            field_simp
          have hr2 : qulp (((i : ℚ) + 1) * s)
              ≤ 2 * (((i : ℚ) + 1) * s
                - (⌊((i : ℚ) + 1) * s / qulp (((i : ℚ) + 1) * s)⌋ : ℚ)
                  * qulp (((i : ℚ) + 1) * s)) := by
            rw [hn]; linarith [hy_lb, huu]
          rcases flq_cases (((i : ℚ) + 1) * s) hy1 with ⟨hcy, hcy2⟩ | ⟨hcy, _⟩
          · exfalso
            have h2r : 2 * (((i : ℚ) + 1) * s
                - (⌊((i : ℚ) + 1) * s / qulp (((i : ℚ) + 1) * s)⌋ : ℚ)
                  * qulp (((i : ℚ) + 1) * s)) = qulp (((i : ℚ) + 1) * s) :=
              le_antisymm hcy2 hr2
            rw [hn] at h2r
            have heq : ((i : ℚ) + 1) * s
                = (⌊(i : ℚ) * s⌋ : ℚ) + 2 - qulp (((i : ℚ) + 1) * s) / 2 := by linarith
            have hule : qulp (((i : ℚ) + 1) * s) ≤ qulp ((i : ℚ) * s) := by
              linarith [hy_lb, heq]
            have huequ : qulp (((i : ℚ) + 1) * s) = qulp ((i : ℚ) * s) :=
              le_antisymm hule huu
            have hs_le : s ≤ 1 := by linarith [hdist, heq, hqy, huequ]
            have hs1 : s = 1 := le_antisymm hs_le hs
            apply hint
            rw [hs1, mul_one, Int.floor_natCast]
            exact Int.cast_natCast i
          · have hval : flq (((i : ℚ) + 1) * s) = (⌊(i : ℚ) * s⌋ : ℚ) + 2 := by
              rw [hcy]
              have hexp2 : ((⌊((i : ℚ) + 1) * s / qulp (((i : ℚ) + 1) * s)⌋ : ℚ) + 1)
                  * qulp (((i : ℚ) + 1) * s)
                  = (⌊((i : ℚ) + 1) * s / qulp (((i : ℚ) + 1) * s)⌋ : ℚ)
                    * qulp (((i : ℚ) + 1) * s) + qulp (((i : ℚ) + 1) * s) := by ring
              rw [hexp2, hn]
              ring
            have hfq : ⌊flq ((i : ℚ) * s)⌋ = ⌊(i : ℚ) * s⌋ + 1 := by
              rw [hKeq,
                show (⌊(i : ℚ) * s⌋ : ℚ) + 1 = ((⌊(i : ℚ) * s⌋ + 1 : ℤ) : ℚ) from by
                  push_cast; ring,
                Int.floor_intCast]
            have hfy : ⌊flq (((i : ℚ) + 1) * s)⌋ = ⌊(i : ℚ) * s⌋ + 2 := by
              rw [hval,
                show (⌊(i : ℚ) * s⌋ : ℚ) + 2 = ((⌊(i : ℚ) * s⌋ + 2 : ℤ) : ℚ) from by
                  push_cast; ring,
                Int.floor_intCast]
            omega

theorem len_le_cast (L M : ℕ) (hL : 0 < L) (hM : 0 < M) (hB : L * M ≤ 2 ^ 52) :
    (L : ℚ) ≤ 2 ^ 52 ∧ (M : ℚ) ≤ 2 ^ 52 := by
  have h1 : L ≤ 2 ^ 52 := le_trans (Nat.le_mul_of_pos_right L hM) hB
  have h2 : M ≤ 2 ^ 52 := le_trans (Nat.le_mul_of_pos_left M hL) hB
  constructor
  · calc (L : ℚ) ≤ ((2 ^ 52 : ℕ) : ℚ) := by exact_mod_cast h1
      _ = 2 ^ 52 := by push_cast; ring
  · calc (M : ℚ) ≤ ((2 ^ 52 : ℕ) : ℚ) := by exact_mod_cast h2
      _ = 2 ^ 52 := by push_cast; ring

theorem ratio_bounds (L M : ℕ) (hM : 0 < M) (hML : M < L) (hB : L * M ≤ 2 ^ 52) :
    1 ≤ (L : ℚ) / (M : ℚ) ∧ (L : ℚ) / (M : ℚ) < 2 ^ 53 := by
  have hM0 : (0 : ℚ) < (M : ℚ) := by exact_mod_cast hM
  have hML0 : (M : ℚ) ≤ (L : ℚ) := by exact_mod_cast le_of_lt hML
  have hL52 := (len_le_cast L M (lt_trans hM hML) hM hB).1
  constructor
  · rw [le_div_iff₀ hM0, one_mul]; exact hML0
  · have hle : (L : ℚ) / (M : ℚ) ≤ (L : ℚ) := by
      apply div_le_self (by positivity)
      exact_mod_cast hM
    have : (2 : ℚ) ^ 52 < 2 ^ 53 := by norm_num
    linarith

theorem pydiv_ge_one (L M : ℕ) (hM : 0 < M) (hML : M < L) (hB : L * M ≤ 2 ^ 52) :
    1 ≤ pydiv L M := by
  obtain ⟨hr1, hr53⟩ := ratio_bounds L M hM hML hB
  have hfl := floor_le_flq ((L : ℚ) / (M : ℚ)) hr1 hr53
  have h1z : (1 : ℤ) ≤ ⌊(L : ℚ) / (M : ℚ)⌋ := Int.le_floor.mpr (by exact_mod_cast hr1)
  rw [pydiv]
  calc (1 : ℚ) = ((1 : ℤ) : ℚ) := by norm_num
    _ ≤ (⌊(L : ℚ) / (M : ℚ)⌋ : ℚ) := by exact_mod_cast h1z
    _ ≤ flq ((L : ℚ) / (M : ℚ)) := hfl

theorem mul_pydiv_lt (L M i : ℕ) (hM : 0 < M) (hML : M < L) (hB : L * M ≤ 2 ^ 52)
    (hi : i < M) : (i : ℚ) * pydiv L M < (L : ℚ) - 1 := by
  have hM0 : (0 : ℚ) < (M : ℚ) := by exact_mod_cast hM
  obtain ⟨hr1, hr53⟩ := ratio_bounds L M hM hML hB
  obtain ⟨hL52, hM52⟩ := len_le_cast L M (lt_trans hM hML) hM hB
  have hs1 : 1 ≤ pydiv L M := pydiv_ge_one L M hM hML hB
  have hs_half : pydiv L M ≤ (L : ℚ) / (M : ℚ) + qulp ((L : ℚ) / (M : ℚ)) / 2 :=
    flq_le_add_half _ hr1
  have hu_le : qulp ((L : ℚ) / (M : ℚ)) ≤ ((L : ℚ) / (M : ℚ)) / 2 ^ 52 :=
    qulp_le _ hr1
  have hhalf : ((L : ℚ) / (M : ℚ)) / 2 ^ 52 / 2 = ((L : ℚ) / (M : ℚ)) / 2 ^ 53 := by
    ring
  have hs_le : pydiv L M ≤ (L : ℚ) / (M : ℚ) + ((L : ℚ) / (M : ℚ)) / 2 ^ 53 := by
    have : qulp ((L : ℚ) / (M : ℚ)) / 2 ≤ ((L : ℚ) / (M : ℚ)) / 2 ^ 53 := by
      rw [← hhalf]; linarith
    linarith
  have hi_le : (i : ℚ) ≤ (M : ℚ) - 1 := by
    have : (i : ℚ) + 1 ≤ (M : ℚ) := by exact_mod_cast hi
    linarith
  have e1 : ((M : ℚ) - 1) * ((L : ℚ) / (M : ℚ)) = (L : ℚ) - (L : ℚ) / (M : ℚ) := by
    field_simp
    ring
  have e2 : (1 : ℚ) + 1 / (M : ℚ) ≤ (L : ℚ) / (M : ℚ) := by
    rw [show (1 : ℚ) + 1 / (M : ℚ) = ((M : ℚ) + 1) / (M : ℚ) from by field_simp]
    rw [div_le_div_iff_of_pos_right hM0]
    exact_mod_cast hML
  have e3 : (L : ℚ) / 2 ^ 53 < 1 / (M : ℚ) := by
    rw [div_lt_div_iff₀ (by norm_num) hM0]
    have hcast : (L : ℚ) * (M : ℚ) ≤ 2 ^ 52 := by
      calc (L : ℚ) * (M : ℚ) = ((L * M : ℕ) : ℚ) := by push_cast; ring
        _ ≤ ((2 ^ 52 : ℕ) : ℚ) := by exact_mod_cast hB
        _ = 2 ^ 52 := by push_cast; ring
    have : (2 : ℚ) ^ 52 < 2 ^ 53 := by norm_num
    linarith
  have e4 : ((M : ℚ) - 1) * (((L : ℚ) / (M : ℚ)) / 2 ^ 53) ≤ (L : ℚ) / 2 ^ 53 := by
    have h1 : ((M : ℚ) - 1) * ((L : ℚ) / (M : ℚ)) ≤ (L : ℚ) := by
      rw [e1]
      have : (0 : ℚ) ≤ (L : ℚ) / (M : ℚ) := by positivity
      linarith
    calc ((M : ℚ) - 1) * (((L : ℚ) / (M : ℚ)) / 2 ^ 53)
        = (((M : ℚ) - 1) * ((L : ℚ) / (M : ℚ))) / 2 ^ 53 := by ring
      _ ≤ (L : ℚ) / 2 ^ 53 := by gcongr
  have main : ((M : ℚ) - 1) * ((L : ℚ) / (M : ℚ) + ((L : ℚ) / (M : ℚ)) / 2 ^ 53)
      < (L : ℚ) - 1 := by
    have expand : ((M : ℚ) - 1) * ((L : ℚ) / (M : ℚ) + ((L : ℚ) / (M : ℚ)) / 2 ^ 53)
        = ((M : ℚ) - 1) * ((L : ℚ) / (M : ℚ))
          + ((M : ℚ) - 1) * (((L : ℚ) / (M : ℚ)) / 2 ^ 53) := by ring
    rw [expand, e1]
    linarith [e2, e3, e4]
  have hM1 : (1 : ℚ) ≤ (M : ℚ) := by exact_mod_cast hM
  calc (i : ℚ) * pydiv L M ≤ ((M : ℚ) - 1) * pydiv L M :=
        mul_le_mul_of_nonneg_right hi_le (by linarith)
    _ ≤ ((M : ℚ) - 1) * ((L : ℚ) / (M : ℚ) + ((L : ℚ) / (M : ℚ)) / 2 ^ 53) :=
        mul_le_mul_of_nonneg_left hs_le (by linarith)
    _ < (L : ℚ) - 1 := main

theorem pyIdx_eq_floor (L M i : ℕ) (hi53 : (i : ℚ) < 2 ^ 53) :
    pyIdx L M i = ⌊flq ((i : ℚ) * pydiv L M)⌋.toNat := by
  rw [pyIdx, pymul, flq_natCast i hi53]

theorem cast_lt_two_pow_53 (i M : ℕ) (hi : i < M) (hM52 : M ≤ 2 ^ 52) :
    (i : ℚ) < 2 ^ 53 := by
  have h : i < 2 ^ 53 := lt_of_lt_of_le hi (le_trans hM52 (by norm_num))
  calc (i : ℚ) < ((2 ^ 53 : ℕ) : ℚ) := by exact_mod_cast h
    _ = 2 ^ 53 := by push_cast; ring

theorem pyIdx_lt_len (L M i : ℕ) (hM : 0 < M) (hML : M < L) (hB : L * M ≤ 2 ^ 52)
    (hi : i < M) : pyIdx L M i < L := by
  have hL : 0 < L := lt_trans hM hML
  have hM52 : M ≤ 2 ^ 52 := le_trans (Nat.le_mul_of_pos_left M hL) hB
  have hi53 : (i : ℚ) < 2 ^ 53 := cast_lt_two_pow_53 i M hi hM52
  rw [pyIdx_eq_floor L M i hi53]
  rcases Nat.eq_zero_or_pos i with h0 | hipos
  · subst h0
    rw [Nat.cast_zero, zero_mul, flq_zero, Int.floor_zero, Int.toNat_zero]
    omega
  · have hs1 : 1 ≤ pydiv L M := pydiv_ge_one L M hM hML hB
    have hi1 : (1 : ℚ) ≤ (i : ℚ) := by exact_mod_cast hipos
    have hx1 : 1 ≤ (i : ℚ) * pydiv L M := by nlinarith
    have hxlt : (i : ℚ) * pydiv L M < (L : ℚ) - 1 := mul_pydiv_lt L M i hM hML hB hi
    have hL52 := (len_le_cast L M hL hM hB).1
    have hx53 : (i : ℚ) * pydiv L M < 2 ^ 53 := by
      have : (2 : ℚ) ^ 52 < 2 ^ 53 := by norm_num
      linarith
    have hfle : flq ((i : ℚ) * pydiv L M) ≤ (⌊(i : ℚ) * pydiv L M⌋ : ℚ) + 1 :=
      flq_le_floor_succ _ hx1 hx53
    have hlt : flq ((i : ℚ) * pydiv L M) < (L : ℚ) := by
      have := Int.floor_le ((i : ℚ) * pydiv L M)
      linarith
    have hfloor : ⌊flq ((i : ℚ) * pydiv L M)⌋ < (L : ℤ) :=
      Int.floor_lt.mpr (by exact_mod_cast hlt)
    have hnn : 0 ≤ ⌊flq ((i : ℚ) * pydiv L M)⌋ :=
      Int.floor_nonneg.mpr (flq_nonneg _ (by positivity))
    omega

theorem pyIdx_succ_lt (L M i : ℕ) (hM : 0 < M) (hML : M < L) (hB : L * M ≤ 2 ^ 52)
    (hi : i + 1 < M) : pyIdx L M i < pyIdx L M (i + 1) := by
  have hL : 0 < L := lt_trans hM hML
  have hM52 : M ≤ 2 ^ 52 := le_trans (Nat.le_mul_of_pos_left M hL) hB
  have hs1 : 1 ≤ pydiv L M := pydiv_ge_one L M hM hML hB
  have hL52 := (len_le_cast L M hL hM hB).1
  have hbig : ((i : ℚ) + 1) * pydiv L M < 2 ^ 53 := by
    have h := mul_pydiv_lt L M (i + 1) hM hML hB hi
    push_cast at h
    have : (2 : ℚ) ^ 52 < 2 ^ 53 := by norm_num
    linarith
  have hmain := floor_flq_mul_lt (pydiv L M) i hs1 hbig
  have hi53a : (i : ℚ) < 2 ^ 53 := cast_lt_two_pow_53 i M (by omega) hM52
  have hi53b : ((i + 1 : ℕ) : ℚ) < 2 ^ 53 := cast_lt_two_pow_53 (i + 1) M hi hM52
  rw [pyIdx_eq_floor L M i hi53a, pyIdx_eq_floor L M (i + 1) hi53b]
  have hnn : 0 ≤ ⌊flq ((i : ℚ) * pydiv L M)⌋ :=
    Int.floor_nonneg.mpr (flq_nonneg _ (by positivity))
  rw [show ((i + 1 : ℕ) : ℚ) = (i : ℚ) + 1 from by push_cast; ring]
  omega

theorem pyIdx_mono (L M : ℕ) (hM : 0 < M) (hML : M < L) (hB : L * M ≤ 2 ^ 52) :
    ∀ j, j < M → ∀ i, i < j → pyIdx L M i < pyIdx L M j := by
  intro j
  induction j with
  | zero => intro _ i hi; omega
  | succ j ih =>
    intro hj i hi
    rcases Nat.lt_succ_iff_lt_or_eq.mp hi with h | h
    · exact lt_trans (ih (by omega) i h) (pyIdx_succ_lt L M j hM hML hB hj)
    · subst h; exact pyIdx_succ_lt L M i hM hML hB hj

theorem leChars_refl (x : List Char) : leChars x x = true := by
  induction x with
  | nil => rfl
  | cons a as ih => simp [leChars, lt_irrefl, ih]

theorem leChars_total (x : List Char) : ∀ y, leChars x y = true ∨ leChars y x = true := by
  induction x with
  | nil => intro y; left; rfl
  | cons a as ih =>
    intro y
    cases y with
    | nil => right; rfl
    | cons b bs =>
      rcases lt_trichotomy a b with h | h | h
      · left; simp [leChars, h]
      · subst h
        rcases ih bs with h2 | h2
        · left; simp [leChars, lt_irrefl, h2]
        · right; simp [leChars, lt_irrefl, h2]
      · right; simp [leChars, h]

theorem leChars_trans (x : List Char) :
    ∀ y z, leChars x y = true → leChars y z = true → leChars x z = true := by
  induction x with
  | nil => intro y z _ _; rfl
  | cons a as ih =>
    intro y z hxy hyz
    cases y with
    | nil => simp [leChars] at hxy
    | cons b bs =>
      cases z with
      | nil => simp [leChars] at hyz
      | cons c cs =>
        by_cases hab : a < b
        · by_cases hbc : b < c
          · simp [leChars, lt_trans hab hbc]
          · by_cases hbc2 : b = c
            · subst hbc2; simp [leChars, hab]
            · simp [leChars, hbc, hbc2] at hyz
        · by_cases hab2 : a = b
          · subst hab2
            have hxy2 : leChars as bs = true := by
              simpa [leChars, lt_irrefl] using hxy
            by_cases hbc : a < c
            · simp [leChars, hbc]
            · by_cases hbc2 : a = c
              · subst hbc2
                have hyz2 : leChars bs cs = true := by
                  simpa [leChars, lt_irrefl] using hyz
                simp [leChars, lt_irrefl, ih bs cs hxy2 hyz2]
              · simp [leChars, hbc, hbc2] at hyz
          · simp [leChars, hab, hab2] at hxy

instance : IsTrans ProcRow rowLe :=
  ⟨fun _ _ _ hab hbc => leChars_trans _ _ _ hab hbc⟩

instance : IsTotal ProcRow rowLe :=
  ⟨fun a b => leChars_total a.timestamp.data b.timestamp.data⟩

theorem keyMatch_mkProcRow (now : String) (p : ProcessInfo) :
    keyMatch now p.pid (mkProcRow now p) = true := by
  simp [keyMatch, mkProcRow]

/-- C1: inserting two ProcessSamples with identical (timestamp, pid) but
different metric values leaves exactly one stored row for that
(timestamp, pid), and that row holds the second write of the values. -/
theorem upsert_last_write_wins (db : List ProcRow) (now : String)
    (p1 p2 : ProcessInfo) (hpid : p1.pid = p2.pid) (_hvals : p1 ≠ p2) :
    (insert_process_info now p2 (insert_process_info now p1 db)).filter
      (keyMatch now p2.pid) = [mkProcRow now p2] := by
  have hk1 : keyMatch now p2.pid (mkProcRow now p1) = true := by
    simp [keyMatch, mkProcRow, hpid]
  have hk2 : keyMatch now p2.pid (mkProcRow now p2) = true :=
    keyMatch_mkProcRow now p2
  simp only [insert_process_info, hpid, List.filter_append, List.filter_filter]
  simp [List.filter, hk1, hk2, Bool.and_not_self]

/-- C1 witness: two writes for pid 1 at the same instant leave the
single row of the second write. -/
theorem upsert_last_write_wins_witness :
    (insert_process_info "2025-01-01T00:00:00" ⟨1, "chrome", "", "u", 20, 200, []⟩
      (insert_process_info "2025-01-01T00:00:00" ⟨1, "chrome", "", "u", 10, 100, []⟩
        [])).filter (keyMatch "2025-01-01T00:00:00" 1)
      = [mkProcRow "2025-01-01T00:00:00" ⟨1, "chrome", "", "u", 20, 200, []⟩] :=
  upsert_last_write_wins [] "2025-01-01T00:00:00"
    ⟨1, "chrome", "", "u", 10, 100, []⟩ ⟨1, "chrome", "", "u", 20, 200, []⟩ rfl
    (fun h => absurd (congrArg ProcessInfo.cpu_percent h) (by decide))

/-- C10: the stored timestamp is the clock reading taken inside the
insert call (ProcessInfo carries no timestamp field), so inserting the
same sample at two different instants yields two distinct rows rather
than a replacement. -/
theorem store_stamps_rows (db : List ProcRow) (p : ProcessInfo)
    (t1 t2 : String) (hne : t1 ≠ t2) :
    (insert_process_info t2 p (insert_process_info t1 p db)).filter
        (fun r => r.pid == p.pid && (r.timestamp == t1 || r.timestamp == t2))
      = [mkProcRow t1 p, mkProcRow t2 p]
    ∧ mkProcRow t1 p ≠ mkProcRow t2 p
    ∧ (mkProcRow t1 p).timestamp = t1 := by
  refine ⟨?_, fun h => hne (congrArg ProcRow.timestamp h), rfl⟩
  have hb : (t1 == t2) = false := by simpa using hne
  have key : ∀ r : ProcRow,
      (r.pid == p.pid && (r.timestamp == t1 || r.timestamp == t2)) = true →
      keyMatch t1 p.pid r = true ∨ keyMatch t2 p.pid r = true := by
    intro r hr
    simp only [keyMatch, Bool.and_eq_true, Bool.or_eq_true, beq_iff_eq] at hr ⊢
    rcases hr with ⟨hpid, hts | hts⟩
    · exact Or.inl ⟨hts, hpid⟩
    · exact Or.inr ⟨hts, hpid⟩
  simp only [insert_process_info]
  rw [List.filter_append, List.filter_append, List.filter_append]
  have piece1 : (((db.filter fun r => !keyMatch t1 p.pid r).filter
      fun r => !keyMatch t2 p.pid r).filter
      fun r => r.pid == p.pid && (r.timestamp == t1 || r.timestamp == t2)) = [] := by
    rw [List.filter_eq_nil_iff]
    intro r hr hPr
    have h1 := (List.mem_filter.mp (List.mem_filter.mp hr).1).2
    have h2 := (List.mem_filter.mp hr).2
    rcases key r hPr with hk | hk
    · simp [hk] at h1
    · simp [hk] at h2
  rw [piece1]
  have hk21 : keyMatch t2 p.pid (mkProcRow t1 p) = false := by
    simp [keyMatch, mkProcRow, hb]
  have hP1 : ((mkProcRow t1 p).pid == p.pid &&
      ((mkProcRow t1 p).timestamp == t1 || (mkProcRow t1 p).timestamp == t2)) = true := by
    simp [mkProcRow]
  have hP2 : ((mkProcRow t2 p).pid == p.pid &&
      ((mkProcRow t2 p).timestamp == t1 || (mkProcRow t2 p).timestamp == t2)) = true := by
    simp [mkProcRow]
  simp only [List.filter, hk21, hP1, hP2, Bool.not_false]
  rfl

/-- C10 witness: the same sample inserted at two different instants
produces the two stamped rows. -/
theorem store_stamps_rows_witness :
    (insert_process_info "t2" ⟨1, "a", "", "u", 1, 1, []⟩
        (insert_process_info "t1" ⟨1, "a", "", "u", 1, 1, []⟩ [])).filter
        (fun r => r.pid == (1 : Int) && (r.timestamp == "t1" || r.timestamp == "t2"))
      = [mkProcRow "t1" ⟨1, "a", "", "u", 1, 1, []⟩,
         mkProcRow "t2" ⟨1, "a", "", "u", 1, 1, []⟩] :=
  (store_stamps_rows [] ⟨1, "a", "", "u", 1, 1, []⟩ "t1" "t2" (by decide)).1

/-- C3: a series within the budget is returned unchanged; a longer one
whose length times the budget stays below 2^52 is decimated to exactly
maxPoints points whose selected original indices, the truncated
binary64 products int(i * (len / maxPoints)), form a strictly
increasing subsequence of the original index range. -/
theorem sample_data_float_spec {α : Type} (data : List α) (M : Nat)
    (hB : data.length * M ≤ 2 ^ 52) :
    (data.length ≤ M → sample_data data M = data) ∧
    (M < data.length →
      (sample_data data M).length = M ∧
      List.Pairwise (· < ·) (sample_indices data.length M) ∧
      ∀ i ∈ sample_indices data.length M, i < data.length) := by
  constructor
  · intro h; simp [sample_data, h]
  · intro h
    rcases Nat.eq_zero_or_pos M with hM0 | hMpos
    · subst hM0
      have hne : ¬ data.length ≤ 0 := by omega
      refine ⟨?_, by simp [sample_indices], by simp [sample_indices]⟩
      rw [sample_data, if_neg hne]
      simp [sample_indices]
    · have hbound : ∀ i ∈ sample_indices data.length M, i < data.length := by
        intro i hi
        obtain ⟨k, hk, rfl⟩ := List.mem_map.mp hi
        exact pyIdx_lt_len data.length M k hMpos h hB (List.mem_range.mp hk)
      refine ⟨?_, ?_, hbound⟩
      · have hnot : ¬ data.length ≤ M := not_le.mpr h
        rw [sample_data, if_neg hnot, length_filterMap_isSome]
        · simp [sample_indices]
        · intro i hi
          rw [List.getElem?_eq_getElem (hbound i hi)]
          rfl
      · rw [sample_indices]
        refine List.pairwise_map.mpr ?_
        refine List.Pairwise.imp_of_mem ?_ (List.pairwise_lt_range M)
        intro a b _ hb hab
        exact pyIdx_mono data.length M hMpos h hB b (List.mem_range.mp hb) a hab

/-- C3 counterexample to the exact-floor index formula: with 1005
points and budget 1000 the binary64 stride arithmetic selects index 200
at position 200, while the exact floor of 200 * 1005 / 1000 is 201. -/
theorem sample_float_index_cex :
    (sample_indices 1005 1000)[200]? = some 200 ∧ 200 * 1005 / 1000 = 201 := by
  constructor
  · rw [sample_indices, List.getElem?_map,
      List.getElem?_range (by norm_num : (200 : ℕ) < 1000)]
    exact congrArg some (by with_unfolding_all decide)
  · norm_num

set_option maxRecDepth 8000 in
/-- C3 witness: a five-point series with budget two is within the size
bound and keeps the points at original indices zero and two. -/
theorem sample_data_float_spec_witness :
    ((2 : ℕ) < 5 ∧ 5 * 2 ≤ 2 ^ 52) ∧
      (sample_data [10, 20, 30, 40, 50] 2).length = 2 ∧
      sample_data [10, 20, 30, 40, 50] 2 = [10, 30] :=
  ⟨⟨by norm_num, by norm_num⟩,
    ((sample_data_float_spec [10, 20, 30, 40, 50] 2 (by norm_num)).2 (by norm_num)).1,
    by with_unfolding_all decide⟩

/-- C7: whatever exception a tick raises in sampling, per-process
collection, or a storage write, the loop catches it, keeps the thread
alive, and proceeds to the next tick after the normal interval sleep. -/
theorem tick_failure_contained (interval : Nat) (names : List String) :
    (∀ env : TickEnv, monitor_iter true interval env names = some interval) ∧
    (∀ envs : List TickEnv,
      monitor_loop_sleeps interval names envs = envs.map fun _ => interval) := by
  have h1 : ∀ env : TickEnv, monitor_iter true interval env names = some interval := by
    intro env
    unfold monitor_iter
    cases tick_body env names <;> simp
  refine ⟨h1, fun envs => ?_⟩
  induction envs with
  | nil => rfl
  | cons env rest ih => simp [monitor_loop_sleeps, h1, ih]

/-- C2 evidence: save_config is not atomic.  Starting from a filesystem
whose configuration path holds the old document, the save passes
through a state (after the explicit unlink, before the move) in which
the configuration path holds no document at all, although the final
state does hold the new one. -/
theorem save_config_midstate_missing :
    ∃ s ∈ save_config_states "config.json" "new" demoConfigFs,
      s "config.json" = none ∧
      ((save_config_states "config.json" "new" demoConfigFs).getLast?.elim False
        (fun t => t "config.json" = some "new")) := by
  refine ⟨fsSet (fsSet demoConfigFs ("config.json" ++ ".tmp") (some "new"))
    "config.json" none, ?_, ?_, ?_⟩
  · have hcond : ((fsSet demoConfigFs ("config.json" ++ ".tmp") (some "new"))
        "config.json").isSome = true := by
      simp [fsSet, demoConfigFs]
    simp only [save_config_states, hcond, if_pos]
    simp
  · simp [fsSet]
  · simp only [save_config_states]
    simp [List.getLast?, fsSet]

theorem dedupeFirst_sublist (l : List String) :
    ∀ seen, List.Sublist (dedupeFirst seen l) l := by
  induction l with
  | nil => intro seen; simp [dedupeFirst]
  | cons a l ih =>
    intro seen
    by_cases h : lowerS a ∈ seen
    · rw [dedupeFirst, if_pos h]
      exact (ih seen).cons a
    · rw [dedupeFirst, if_neg h]
      exact (ih _).cons₂ a

theorem mem_dedupeFirst (x : String) (l : List String) : ∀ seen,
    x ∈ dedupeFirst seen l ↔
      (¬ lowerS x ∈ seen ∧ l.find? (fun z => lowerS z == lowerS x) = some x) := by
  induction l with
  | nil => intro seen; simp [dedupeFirst]
  | cons a l ih =>
    intro seen
    by_cases hseen : lowerS a ∈ seen
    · rw [dedupeFirst, if_pos hseen, ih seen]
      by_cases heq : lowerS a = lowerS x
      · constructor
        · rintro ⟨hx, -⟩
          exact absurd (heq ▸ hseen) hx
        · rintro ⟨hx, hfind⟩
          have hpa : (lowerS a == lowerS x) = true := by simp [heq]
          simp only [List.find?_cons, hpa] at hfind
          have hax : a = x := by simpa using hfind
          subst hax
          exact absurd (heq ▸ hseen) hx
      · have hpa : (lowerS a == lowerS x) = false := by simp [heq]
        simp only [List.find?_cons, hpa]
    · rw [dedupeFirst, if_neg hseen]
      by_cases hxa : x = a
      · subst hxa
        constructor
        · intro _
          refine ⟨hseen, ?_⟩
          simp [List.find?_cons]
        · intro _
          exact List.mem_cons_self x _
      · rw [List.mem_cons, ih (lowerS a :: seen)]
        by_cases heq : lowerS a = lowerS x
        · constructor
          · rintro (h | ⟨hns, -⟩)
            · exact absurd h hxa
            · exact absurd (by rw [heq]; exact List.mem_cons_self _ _) hns
          · rintro ⟨hns, hfind⟩
            have hpa : (lowerS a == lowerS x) = true := by simp [heq]
            simp only [List.find?_cons, hpa] at hfind
            have hax : a = x := by simpa using hfind
            exact absurd hax.symm hxa
        · have hpa : (lowerS a == lowerS x) = false := by simp [heq]
          simp only [List.find?_cons, hpa]
          constructor
          · rintro (h | ⟨hns, hfind⟩)
            · exact absurd h hxa
            · exact ⟨fun hx => hns (List.mem_cons_of_mem _ hx), hfind⟩
          · rintro ⟨hns, hfind⟩
            refine Or.inr ⟨?_, hfind⟩
            intro hx
            rcases List.mem_cons.mp hx with h | h
            · exact heq h.symm
            · exact hns h

theorem dedupeFirst_pairwise (l : List String) :
    ∀ seen, ciDistinct (dedupeFirst seen l) := by
  induction l with
  | nil => intro seen; simp [dedupeFirst, ciDistinct]
  | cons a l ih =>
    intro seen
    by_cases h : lowerS a ∈ seen
    · rw [dedupeFirst, if_pos h]; exact ih seen
    · rw [dedupeFirst, if_neg h]
      refine List.Pairwise.cons ?_ (ih _)
      intro y hy habs
      obtain ⟨hns, -⟩ := (mem_dedupeFirst y l _).mp hy
      exact hns (by rw [← habs]; exact List.mem_cons_self _ _)

theorem add_process_preserves (table : List String) (inputText : String)
    (h : ciDistinct table) : ciDistinct (add_process table inputText) := by
  unfold add_process
  by_cases h1 : (String.mk (trimL inputText.data)).data.isEmpty
  · rw [if_pos h1]; exact h
  · rw [if_neg h1]
    by_cases h2 : table.any
        (fun e => lowerS e == lowerS (String.mk (trimL inputText.data)))
    · rw [if_pos h2]; exact h
    · rw [if_neg h2]
      rw [ciDistinct, List.pairwise_append]
      refine ⟨h, List.pairwise_singleton _ _, ?_⟩
      intro e he y hy
      rw [List.mem_singleton.mp hy]
      intro habs
      rw [List.any_eq_true] at h2
      exact h2 ⟨e, he, by simp [habs]⟩

/-- C5: after any sequence of watch-list loads and additions no two
entries are equal up to case; adding a name already present
case-insensitively leaves the table unchanged (so the first-added
casing stays); and the load de-duplication is a sublist of the
configured list (original order and casing) that keeps exactly the
first occurrence of every case-insensitive name class. -/
theorem watchlist_ci_unique :
    (∀ ops : List WatchOp, ciDistinct (watch_run ops)) ∧
    (∀ (table : List String) (inputText : String),
      (∃ e ∈ table, lowerS e = lowerS (String.mk (trimL inputText.data))) →
      add_process table inputText = table) ∧
    (∀ cfg : List String,
      List.Sublist (load_watchlist cfg) cfg ∧
      ∀ x, x ∈ load_watchlist cfg ↔
        cfg.find? (fun z => lowerS z == lowerS x) = some x) := by
  refine ⟨?_, ?_, ?_⟩
  · have step : ∀ (t : List String) (op : WatchOp),
        ciDistinct t → ciDistinct (watch_step t op) := by
      intro t op ht
      cases op with
      | load cfg => exact dedupeFirst_pairwise cfg []
      | add s => exact add_process_preserves t s ht
    have run : ∀ (ops : List WatchOp) (t : List String), ciDistinct t →
        ciDistinct (ops.foldl watch_step t) := by
      intro ops
      induction ops with
      | nil => intro t ht; exact ht
      | cons op ops ih => intro t ht; exact ih _ (step t op ht)
    intro ops
    exact run ops [] List.Pairwise.nil
  · rintro table inputText ⟨e, he, heq⟩
    unfold add_process
    by_cases h1 : (String.mk (trimL inputText.data)).data.isEmpty
    · rw [if_pos h1]
    · rw [if_neg h1, if_pos (List.any_eq_true.mpr ⟨e, he, by simp [heq]⟩)]
  · intro cfg
    refine ⟨dedupeFirst_sublist cfg [], fun x => ?_⟩
    rw [load_watchlist, mem_dedupeFirst]
    simp

/-- C5 witness: adding the name Chrome when chrome is already listed
leaves the single first-added entry. -/
theorem watchlist_ci_unique_witness :
    add_process ["chrome"] "Chrome" = ["chrome"] :=
  watchlist_ci_unique.2.1 ["chrome"] "Chrome"
    ⟨"chrome", by decide, by decide⟩

theorem contains_true_iff (ns : List (List Char)) (n : List Char) :
    ns.contains n = true ↔ n ∈ ns := by simp

theorem contains_false_iff (ns : List (List Char)) (n : List Char) :
    ns.contains n = false ↔ ¬ n ∈ ns := by
  simp

theorem insertSortedCI_perm (t : List String) (nm : String) :
    (insertSortedCI t nm).Perm (nm :: t) := by
  induction t with
  | nil => exact List.Perm.refl _
  | cons x xs ih =>
    by_cases h : leChars (lowerS x) (lowerS nm) = true
    · have he : insertSortedCI (x :: xs) nm = x :: insertSortedCI xs nm := by
        rw [insertSortedCI, if_pos h]
      rw [he]
      exact (ih.cons x).trans (List.Perm.swap nm x xs)
    · have he : insertSortedCI (x :: xs) nm = nm :: x :: xs := by
        rw [insertSortedCI, if_neg h]
      rw [he]

theorem foldl_insertSortedCI_perm (adds : List String) :
    ∀ base, (adds.foldl insertSortedCI base).Perm (adds ++ base) := by
  induction adds with
  | nil => intro base; exact List.Perm.refl _
  | cons a adds ih =>
    intro base
    rw [List.foldl_cons]
    have h1 := ih (insertSortedCI base a)
    have h2 : (adds ++ insertSortedCI base a).Perm (adds ++ (a :: base)) :=
      List.Perm.append_left adds (insertSortedCI_perm base a)
    exact (h1.trans h2).trans List.perm_middle

theorem contains_names_to_add (table live : List String) (n : List Char)
    (hn : n ∈ (unique_names live).map lowerS) :
    (names_to_add table live).contains n = !(table.map lowerS).contains n := by
  cases hB : (table.map lowerS).contains n with
  | false =>
    rw [Bool.not_false]
    refine (contains_true_iff _ _).mpr (List.mem_filter.mpr ⟨hn, ?_⟩)
    rw [hB]
    rfl
  | true =>
    rw [Bool.not_true]
    refine (contains_false_iff _ _).mpr ?_
    intro hmem
    obtain ⟨-, hflag⟩ := List.mem_filter.mp hmem
    rw [hB] at hflag
    exact absurd hflag (by decide)

theorem contains_names_to_remove (table live : List String) (n : List Char)
    (hn : n ∈ table.map lowerS) :
    (names_to_remove table live).contains n
      = !((unique_names live).map lowerS).contains n := by
  cases hB : ((unique_names live).map lowerS).contains n with
  | false =>
    rw [Bool.not_false]
    refine (contains_true_iff _ _).mpr (List.mem_filter.mpr ⟨hn, ?_⟩)
    rw [hB]
    rfl
  | true =>
    rw [Bool.not_true]
    refine (contains_false_iff _ _).mpr ?_
    intro hmem
    obtain ⟨-, hflag⟩ := List.mem_filter.mp hmem
    rw [hB] at hflag
    exact absurd hflag (by decide)

/-- C9: one refresher tick emits as additions exactly the live names
absent from the table and as removals exactly the table rows absent
from the live set (both under case-insensitive identity), re-publishes
no name in the intersection (no emitted addition collides with a table
name, and the surviving rows are the very table rows whose name stays
live), and the new table is exactly additions plus survivors. -/
theorem refresh_incremental (table live : List String) :
    ((refresh_adds table live).map lowerS = names_to_add table live) ∧
    ((refresh_removes table live).map lowerS = names_to_remove table live) ∧
    (∀ nm ∈ refresh_adds table live, ¬ lowerS nm ∈ table.map lowerS) ∧
    (refresh_table table live).Perm
      (refresh_adds table live ++
        table.filter (fun r => ((unique_names live).map lowerS).contains (lowerS r))) := by
  refine ⟨?_, ?_, ?_, ?_⟩
  · rw [refresh_adds]
    have hcomp : (fun n => (names_to_add table live).contains (lowerS n))
        = (fun m => (names_to_add table live).contains m) ∘ lowerS := rfl
    rw [hcomp, ← List.filter_map, names_to_add]
    refine List.filter_congr ?_
    intro n hn
    exact contains_names_to_add table live n hn
  · rw [refresh_removes]
    have hcomp : (fun r => (names_to_remove table live).contains (lowerS r))
        = (fun m => (names_to_remove table live).contains m) ∘ lowerS := rfl
    rw [hcomp, ← List.filter_map, names_to_remove]
    refine List.filter_congr ?_
    intro n hn
    exact contains_names_to_remove table live n hn
  · intro nm hnm
    obtain ⟨-, hflag⟩ := List.mem_filter.mp hnm
    have hmem : lowerS nm ∈ names_to_add table live :=
      (contains_true_iff _ _).mp hflag
    obtain ⟨-, hflag2⟩ := List.mem_filter.mp hmem
    intro habs
    rw [(contains_true_iff _ _).mpr habs] at hflag2
    exact absurd hflag2 (by decide)
  · rw [refresh_table]
    have hbase : table.filter
        (fun r => !(names_to_remove table live).contains (lowerS r))
        = table.filter
          (fun r => ((unique_names live).map lowerS).contains (lowerS r)) := by
      refine List.filter_congr ?_
      intro r hr
      rw [contains_names_to_remove table live (lowerS r)
        (List.mem_map_of_mem lowerS hr), Bool.not_not]
    rw [hbase]
    exact foldl_insertSortedCI_perm _ _

/-- C9 witness: from published names a, b and live names b, c the tick
emits exactly the addition c and the removal a. -/
theorem refresh_incremental_witness :
    refresh_adds ["a", "b"] ["b", "c"] = ["c"] ∧
    refresh_removes ["a", "b"] ["b", "c"] = ["a"] ∧
    ¬ lowerS "c" ∈ ["a", "b"].map lowerS :=
  ⟨by decide, by decide,
    (refresh_incremental ["a", "b"] ["b", "c"]).2.2.1 "c" (by decide)⟩

theorem mem_get_process_data (pid? : Option Int) (name? : Option String)
    (start? end? : Option String) (db : List ProcRow) (out : ProcRowOut) :
    out ∈ get_process_data pid? name? start? end? db ↔
      ∃ r ∈ db, procPred pid? name? start? end? r = true ∧ out = decodeRow r := by
  rw [get_process_data]
  constructor
  · intro h
    obtain ⟨r, hr, rfl⟩ := List.mem_map.mp h
    have hr2 := (List.mem_insertionSort rowLe).mp hr
    obtain ⟨hdb, hpred⟩ := List.mem_filter.mp hr2
    exact ⟨r, hdb, hpred, rfl⟩
  · rintro ⟨r, hdb, hpred, rfl⟩
    exact List.mem_map_of_mem _
      ((List.mem_insertionSort rowLe).mpr (List.mem_filter.mpr ⟨hdb, hpred⟩))

/-- C4: a pid filter excludes every row of a different pid, a start
filter excludes every row with an earlier timestamp, the supplied
filters are conjoined (a row is returned exactly when it satisfies them
all), and the returned rows are ordered ascending by timestamp. -/
theorem query_filter_sound (pid? : Option Int) (name? : Option String)
    (start? end? : Option String) (db : List ProcRow) :
    (∀ P, pid? = some P →
      ∀ out ∈ get_process_data pid? name? start? end? db, out.pid = P) ∧
    (∀ T, start? = some T →
      ∀ out ∈ get_process_data pid? name? start? end? db,
        tsLeB T out.timestamp = true) ∧
    (∀ out, out ∈ get_process_data pid? name? start? end? db ↔
      ∃ r ∈ db, procPred pid? name? start? end? r = true ∧ out = decodeRow r) ∧
    List.Pairwise (fun a b => tsLeB a.timestamp b.timestamp = true)
      (get_process_data pid? name? start? end? db) := by
  have hmem := fun out => mem_get_process_data pid? name? start? end? db out
  refine ⟨?_, ?_, hmem, ?_⟩
  · rintro P rfl out hout
    obtain ⟨r, -, hpred, rfl⟩ := (hmem out).mp hout
    simp only [procPred, Bool.and_eq_true] at hpred
    have hp : r.pid = P := by simpa using hpred.1.1.1
    exact hp
  · rintro T rfl out hout
    obtain ⟨r, -, hpred, rfl⟩ := (hmem out).mp hout
    simp only [procPred, Bool.and_eq_true] at hpred
    have hT := hpred.1.2
    by_cases hTe : T.data.isEmpty = true
    · have hnil : T.data = [] := by simpa using hTe
      show tsLeB T r.timestamp = true
      rw [tsLeB, hnil]
      rfl
    · rw [if_neg hTe] at hT
      exact hT
  · rw [get_process_data]
    have hs : List.Pairwise rowLe
        ((db.filter (procPred pid? name? start? end?)).insertionSort rowLe) :=
      List.sorted_insertionSort rowLe _
    exact List.pairwise_map.mpr (hs.imp (fun h => h))

/-- C4 witness: a query for pid 1 over a one-row store returns that row
with pid 1. -/
theorem query_filter_sound_witness :
    (decodeRow demoRowA).pid = 1 :=
  (query_filter_sound (some 1) none none none [demoRowA]).1 1 rfl
    (decodeRow demoRowA)
    (by
      have he : get_process_data (some 1) none none none [demoRowA]
          = [decodeRow demoRowA] := rfl
      rw [he]
      exact List.mem_singleton_self _)

/-- C8 counterexample: a stored row named Chrome is equal to the query
name chrome up to case, yet neither the row query nor the distinct-pid
query with name chrome returns it, because both use a case-sensitive
TEXT comparison. -/
theorem name_match_case_cex :
    lowerS "Chrome" = lowerS "chrome" ∧
    get_process_data none (some "chrome") none none [chromeRow] = [] ∧
    get_all_pids (some "chrome") [chromeRow] = [] :=
  ⟨by decide, rfl, rfl⟩

/-- C8 (amended): get_process_data with a name filter and get_all_pids
with a non-empty name return exactly the rows and pids whose stored
name equals the query name byte for byte; the stored casing is
preserved but matching is case-sensitive. -/
theorem name_match_exact (db : List ProcRow) (n : String) :
    (∀ out, out ∈ get_process_data none (some n) none none db ↔
      ∃ r ∈ db, r.name = n ∧ out = decodeRow r) ∧
    (n.data.isEmpty = false →
      ∀ p : Int, p ∈ get_all_pids (some n) db ↔
        ∃ r ∈ db, r.name = n ∧ r.pid = p) := by
  constructor
  · intro out
    rw [mem_get_process_data]
    constructor
    · rintro ⟨r, hdb, hpred, rfl⟩
      refine ⟨r, hdb, ?_, rfl⟩
      simp only [procPred, Bool.and_eq_true] at hpred
      simpa using hpred.1.1.2
    · rintro ⟨r, hdb, hname, rfl⟩
      refine ⟨r, hdb, ?_, rfl⟩
      simp [procPred, hname]
  · intro hne p
    have hcond : ¬ (n.data.isEmpty = true) := by simp [hne]
    rw [get_all_pids]
    rw [if_neg hcond]
    constructor
    · intro hp
      have h1 := (List.mem_insertionSort _).mp hp
      have h2 := List.mem_dedup.mp h1
      obtain ⟨r, hr, rfl⟩ := List.mem_map.mp h2
      obtain ⟨hdb, hname⟩ := List.mem_filter.mp hr
      exact ⟨r, hdb, by simpa using hname, rfl⟩
    · rintro ⟨r, hdb, hname, rfl⟩
      exact (List.mem_insertionSort _).mpr (List.mem_dedup.mpr
        (List.mem_map.mpr ⟨r, List.mem_filter.mpr ⟨hdb, by simp [hname]⟩, rfl⟩))

/-- C8 witness: under the amended exact-match reading, querying with
the stored casing Chrome does return pid 7. -/
theorem name_match_exact_witness :
    (7 : Int) ∈ get_all_pids (some "Chrome") [chromeRow] :=
  ((name_match_exact [chromeRow] "Chrome").2 rfl 7).mpr
    ⟨chromeRow, List.mem_singleton_self _, rfl, rfl⟩

/-! ## Round-trip lemmas for the JSON model -/

theorem parseStrBody_esc (s : List Char) : ∀ rest : List Char,
    parseStrBody (escChars s ++ rest) = some (s, rest) := by
  induction s with
  | nil =>
    intro rest
    rw [show escChars [] = ['"'] from rfl, List.cons_append, List.nil_append]
    rw [parseStrBody.eq_def]
    simp
  | cons c r ih =>
    intro rest
    by_cases hq : c = '"'
    · subst hq
      rw [show escChars ('"' :: r) = '\\' :: '"' :: escChars r from by
        rw [escChars, if_pos rfl]]
      rw [List.cons_append, List.cons_append]
      rw [parseStrBody.eq_def]
      simp only [reduceIte, Bool.or_eq_true, decide_eq_true_eq]
      simp
      rw [ih rest]
    · by_cases hb : c = '\\'
      · subst hb
        rw [show escChars ('\\' :: r) = '\\' :: '\\' :: escChars r from by
          rw [escChars, if_neg (by decide), if_pos rfl]]
        rw [List.cons_append, List.cons_append]
        rw [parseStrBody.eq_def]
        simp
        rw [ih rest]
      · rw [show escChars (c :: r) = c :: escChars r from by
          rw [escChars, if_neg hq, if_neg hb]]
        rw [List.cons_append]
        rw [parseStrBody.eq_def]
        simp only []
        rw [if_neg hq, if_neg hb, ih rest]

theorem digitChar_isDigit (d : Nat) (h : d < 10) :
    (Nat.digitChar d).isDigit = true := by
  interval_cases d <;> decide

theorem digitChar_val (d : Nat) (h : d < 10) :
    (Nat.digitChar d).toNat - 48 = d := by
  interval_cases d <;> decide

theorem natCharsAux_spec (fuel : Nat) : ∀ m, m < fuel →
    natCharsAux fuel m ≠ [] ∧ (∀ c ∈ natCharsAux fuel m, c.isDigit = true) ∧
    digitsVal (natCharsAux fuel m) = m := by
  induction fuel with
  | zero => intro m hm; exact absurd hm (Nat.not_lt_zero m)
  | succ f ih =>
    intro m hm
    by_cases h10 : m < 10
    · rw [natCharsAux, if_pos h10]
      refine ⟨by simp, ?_, ?_⟩
      · intro c hc
        rw [List.mem_singleton.mp hc]
        exact digitChar_isDigit m h10
      · show digitsVal [Nat.digitChar m] = m
        have : digitsVal [Nat.digitChar m] = (Nat.digitChar m).toNat - 48 := by
          simp [digitsVal, List.foldl]
        rw [this]
        exact digitChar_val m h10
    · rw [natCharsAux, if_neg h10]
      have hm10 : m / 10 < f := by
        have hlt : m / 10 < m := Nat.div_lt_self (by omega) (by omega)
        omega
      obtain ⟨hne, hdig, hval⟩ := ih (m / 10) hm10
      refine ⟨by simp [hne], ?_, ?_⟩
      · intro c hc
        rcases List.mem_append.mp hc with h | h
        · exact hdig c h
        · rw [List.mem_singleton.mp h]
          exact digitChar_isDigit _ (Nat.mod_lt m (by omega))
      · rw [digitsVal, List.foldl_append]
        have hstep : ∀ (acc : Nat) (c : Char),
            List.foldl (fun a c => a * 10 + (c.toNat - 48)) acc [c]
              = acc * 10 + (c.toNat - 48) := by
          intro acc c; simp [List.foldl]
        rw [hstep]
        have hacc : List.foldl (fun a c => a * 10 + (c.toNat - 48)) 0
            (natCharsAux f (m / 10)) = m / 10 := hval
        rw [hacc, digitChar_val _ (Nat.mod_lt m (by omega))]
        omega

theorem natChars_spec (m : Nat) :
    natChars m ≠ [] ∧ (∀ c ∈ natChars m, c.isDigit = true) ∧
    digitsVal (natChars m) = m :=
  natCharsAux_spec (m + 1) m (Nat.lt_succ_self m)

theorem span_all_append (p : Char → Bool) (rest : List Char)
    (hr : ∀ c, rest.head? = some c → p c = false) :
    ∀ l : List Char, (∀ c ∈ l, p c = true) →
    (l ++ rest).takeWhile p = l ∧ (l ++ rest).dropWhile p = rest := by
  intro l
  induction l with
  | nil =>
    intro _
    simp only [List.nil_append]
    cases rest with
    | nil => simp
    | cons c rs =>
      have hc := hr c rfl
      constructor
      · simp [List.takeWhile_cons, hc]
      · simp [List.dropWhile_cons, hc]
  | cons a l ih =>
    intro hl
    have ha := hl a (List.mem_cons_self _ _)
    obtain ⟨ht, hd⟩ := ih (fun c hc => hl c (List.mem_cons_of_mem a hc))
    constructor
    · simp [List.takeWhile_cons, ha, ht]
    · simp [List.dropWhile_cons, ha, hd]

theorem bdry_head_not_digit (rest : List Char) (h : Bdry rest) :
    ∀ c, rest.head? = some c → c.isDigit = false := by
  intro c hc
  rcases h with rfl | ⟨d, r2, rfl, hd⟩
  · simp at hc
  · have hcd : d = c := by simpa using hc
    subst hcd
    rcases hd with rfl | rfl | rfl <;> decide

theorem parseNatNum_natChars (m : Nat) (rest : List Char)
    (hr : ∀ c, rest.head? = some c → c.isDigit = false) :
    parseNatNum (natChars m ++ rest) = some (m, rest) := by
  obtain ⟨hne, hdig, hval⟩ := natChars_spec m
  obtain ⟨ht, hd⟩ := span_all_append Char.isDigit rest hr (natChars m) hdig
  rw [parseNatNum, ht, hd, hval]
  rw [if_neg (by simp [hne])]

theorem isDigit_not_ws (c : Char) (h : c.isDigit = true) : isWsChar c = false := by
  by_cases h1 : c = ' '
  · rw [h1] at h; exact absurd h (by decide)
  · by_cases h2 : c = '\t'
    · rw [h2] at h; exact absurd h (by decide)
    · by_cases h3 : c = '\n'
      · rw [h3] at h; exact absurd h (by decide)
      · by_cases h4 : c = '\r'
        · rw [h4] at h; exact absurd h (by decide)
        · simp [isWsChar, h1, h2, h3, h4]

theorem isDigit_ne (c : Char) (h : c.isDigit = true) (d : Char)
    (hd : d.isDigit = false) : c ≠ d := by
  intro he
  rw [he, hd] at h
  exact absurd h (by decide)

theorem skipWs_not_ws (c : Char) (r : List Char) (h : isWsChar c = false) :
    skipWs (c :: r) = c :: r := by
  rw [skipWs, if_neg (by simp [h])]

theorem skipWs_space (r : List Char) : skipWs (' ' :: r) = skipWs r := by
  rw [skipWs, if_pos (by decide)]

theorem dumpV_head (j : Json) :
    ∃ c r, dumpV j = c :: r ∧ isWsChar c = false ∧ c ≠ ']' ∧ c ≠ rbraceChar := by
  have hd : ∀ c : Char, c.isDigit = true →
      isWsChar c = false ∧ c ≠ ']' ∧ c ≠ rbraceChar := fun c hc =>
    ⟨isDigit_not_ws c hc, isDigit_ne c hc ']' (by decide),
      isDigit_ne c hc rbraceChar (by decide)⟩
  cases j with
  | num i =>
    by_cases hi : i < 0
    · refine ⟨'-', natChars i.natAbs, ?_, by decide⟩
      show intChars i = _
      rw [intChars, if_pos hi]
    · obtain ⟨hne, hdig, -⟩ := natChars_spec i.natAbs
      have he : dumpV (Json.num i) = natChars i.natAbs := by
        show intChars i = _
        rw [intChars, if_neg hi]
      cases hnc : natChars i.natAbs with
      | nil => exact absurd hnc hne
      | cons c r =>
        refine ⟨c, r, by rw [he, hnc], hd c (hdig c ?_)⟩
        rw [hnc]
        exact List.mem_cons_self _ _
  | bool b =>
    cases b with
    | false => exact ⟨'f', _, rfl, by decide⟩
    | true => exact ⟨'t', _, rfl, by decide⟩
  | arr l =>
    cases l with
    | nil => exact ⟨'[', _, rfl, by decide⟩
    | cons v vs => exact ⟨'[', _, rfl, by decide⟩
  | obj m =>
    cases m with
    | nil => exact ⟨lbraceChar, _, rfl, by decide⟩
    | cons f ms => exact ⟨lbraceChar, _, rfl, by decide⟩
  | null => exact ⟨'n', _, rfl, by decide⟩
  | str s => exact ⟨'"', _, rfl, by decide⟩

theorem skipWs_dumpV (j : Json) (rest : List Char) :
    skipWs (dumpV j ++ rest) = dumpV j ++ rest := by
  obtain ⟨c, r, he, hw, -, -⟩ := dumpV_head j
  rw [he, List.cons_append]
  exact skipWs_not_ws c _ hw

theorem bdry_dumpTail (vs : List Json) (rest : List Char) :
    Bdry (dumpTail vs ++ rest) := by
  cases vs with
  | nil => exact Or.inr ⟨']', rest, rfl, Or.inr (Or.inl rfl)⟩
  | cons v vs2 => exact Or.inr ⟨',', _, rfl, Or.inl rfl⟩

theorem bdry_dumpMTail (ms : List (String × Json)) (rest : List Char) :
    Bdry (dumpMTail ms ++ rest) := by
  cases ms with
  | nil => exact Or.inr ⟨rbraceChar, rest, rfl, Or.inr (Or.inr rfl)⟩
  | cons m ms2 => exact Or.inr ⟨',', _, rfl, Or.inl rfl⟩

theorem sizeV_pos (j : Json) : 1 ≤ sizeV j := by
  cases j <;> simp [sizeV]

theorem dumpMem_shape (k : String) (x : Json) (Z : List Char) :
    dumpMem (k, x) ++ Z
      = '"' :: (escChars k.data ++ (':' :: ' ' :: (dumpV x ++ Z))) := by
  rw [show dumpMem (k, x) = ('"' :: escChars k.data) ++ (':' :: ' ' :: dumpV x) from rfl]
  simp [List.append_assoc]

theorem parse_dumpV_rt : ∀ n : Nat,
    (∀ (j : Json) (rest : List Char), sizeV j ≤ n → Bdry rest →
      parseV n (dumpV j ++ rest) = some (j, rest)) ∧
    (∀ (v : Json) (vs : List Json) (rest : List Char),
      sizeL (v :: vs) ≤ n → Bdry rest →
      parseElems n (dumpV v ++ (dumpTail vs ++ rest)) = some (v :: vs, rest)) ∧
    (∀ (k : String) (x : Json) (ms : List (String × Json)) (rest : List Char),
      sizeM ((k, x) :: ms) ≤ n → Bdry rest →
      parseMems n (dumpMem (k, x) ++ (dumpMTail ms ++ rest))
        = some ((k, x) :: ms, rest)) := by
  intro n
  induction n with
  | zero =>
    refine ⟨?_, ?_, ?_⟩
    · intro j rest hs _
      have := sizeV_pos j
      omega
    · intro v vs rest hs _
      rw [sizeL] at hs
      omega
    · intro k x ms rest hs _
      simp only [sizeM] at hs
      omega
  | succ n ih =>
    obtain ⟨ihV, ihE, ihM⟩ := ih
    refine ⟨?_, ?_, ?_⟩
    · intro j rest hs hrest
      cases j with
      | null =>
        rw [show dumpV Json.null ++ rest = 'n' :: 'u' :: 'l' :: 'l' :: rest from rfl]
        rw [parseV]
        rw [if_neg (by decide), if_neg (by decide), if_neg (by decide), if_pos rfl]
        rw [show stripLit ['u', 'l', 'l'] ('u' :: 'l' :: 'l' :: rest) = some rest from by
          simp [stripLit]]
      | bool b =>
        cases b with
        | true =>
          rw [show dumpV (Json.bool true) ++ rest
              = 't' :: 'r' :: 'u' :: 'e' :: rest from rfl]
          rw [parseV]
          rw [if_neg (by decide), if_neg (by decide), if_neg (by decide),
            if_neg (by decide), if_pos rfl]
          rw [show stripLit ['r', 'u', 'e'] ('r' :: 'u' :: 'e' :: rest)
              = some rest from by simp [stripLit]]
        | false =>
          rw [show dumpV (Json.bool false) ++ rest
              = 'f' :: 'a' :: 'l' :: 's' :: 'e' :: rest from rfl]
          rw [parseV]
          rw [if_neg (by decide), if_neg (by decide), if_neg (by decide),
            if_neg (by decide), if_neg (by decide), if_pos rfl]
          rw [show stripLit ['a', 'l', 's', 'e'] ('a' :: 'l' :: 's' :: 'e' :: rest)
              = some rest from by simp [stripLit]]
      | num i =>
        by_cases hi : i < 0
        · rw [show dumpV (Json.num i) = intChars i from rfl, intChars,
            if_pos hi, List.cons_append]
          rw [parseV]
          rw [if_neg (by decide), if_neg (by decide), if_neg (by decide),
            if_neg (by decide), if_neg (by decide), if_neg (by decide), if_pos rfl]
          rw [parseNatNum_natChars _ _ (bdry_head_not_digit rest hrest)]
          simp only []
          have h2 : -((i.natAbs : Nat) : Int) = i := by omega
          rw [h2]
        · obtain ⟨hne, hdig, -⟩ := natChars_spec i.natAbs
          have hd : dumpV (Json.num i) = natChars i.natAbs := by
            rw [show dumpV (Json.num i) = intChars i from rfl, intChars, if_neg hi]
          cases hnc : natChars i.natAbs with
          | nil => exact absurd hnc hne
          | cons c r =>
            have hcd : c.isDigit = true := by
              refine hdig c ?_
              rw [hnc]
              exact List.mem_cons_self _ _
            rw [hd, hnc, List.cons_append]
            rw [parseV]
            rw [if_neg (isDigit_ne c hcd lbraceChar (by decide)),
              if_neg (isDigit_ne c hcd '"' (by decide)),
              if_neg (isDigit_ne c hcd '[' (by decide)),
              if_neg (isDigit_ne c hcd 'n' (by decide)),
              if_neg (isDigit_ne c hcd 't' (by decide)),
              if_neg (isDigit_ne c hcd 'f' (by decide)),
              if_neg (isDigit_ne c hcd '-' (by decide)),
              if_pos hcd]
            rw [← List.cons_append, ← hnc]
            rw [parseNatNum_natChars _ _ (bdry_head_not_digit rest hrest)]
            simp only []
            have h2 : ((i.natAbs : Nat) : Int) = i := by omega
            rw [h2]
      | str s =>
        rw [show dumpV (Json.str s) ++ rest
            = '"' :: (escChars s.data ++ rest) from by
          rw [show dumpV (Json.str s) = '"' :: escChars s.data from rfl,
            List.cons_append]]
        rw [parseV]
        rw [if_neg (by decide), if_pos rfl]
        rw [parseStrBody_esc]
      | arr l =>
        cases l with
        | nil =>
          rw [show dumpV (Json.arr []) ++ rest = '[' :: ']' :: rest from rfl]
          rw [parseV]
          rw [if_neg (by decide), if_neg (by decide), if_pos rfl]
          rw [skipWs_not_ws _ _ (by decide)]
          simp only []
          simp
        | cons v vs =>
          rw [show dumpV (Json.arr (v :: vs))
              = '[' :: (dumpV v ++ dumpTail vs) from rfl]
          rw [List.cons_append, List.append_assoc]
          rw [parseV]
          rw [if_neg (by decide), if_neg (by decide), if_pos rfl]
          rw [skipWs_dumpV]
          obtain ⟨c, r, hce, -, hc1, -⟩ := dumpV_head v
          rw [hce, List.cons_append]
          simp only []
          rw [if_neg hc1]
          rw [← List.cons_append, ← hce]
          rw [ihE v vs rest (by rw [sizeV] at hs; omega) hrest]
      | obj m =>
        cases m with
        | nil =>
          rw [show dumpV (Json.obj []) ++ rest
              = lbraceChar :: rbraceChar :: rest from rfl]
          rw [parseV]
          rw [if_pos rfl]
          rw [skipWs_not_ws _ _ (by decide)]
          simp only []
          simp
        | cons f ms =>
          obtain ⟨k, x⟩ := f
          rw [show dumpV (Json.obj ((k, x) :: ms))
              = lbraceChar :: (dumpMem (k, x) ++ dumpMTail ms) from rfl]
          rw [List.cons_append, List.append_assoc]
          rw [parseV]
          rw [if_pos rfl]
          rw [dumpMem_shape]
          rw [skipWs_not_ws _ _ (by decide)]
          simp only []
          rw [if_neg (by decide)]
          rw [← dumpMem_shape]
          rw [ihM k x ms rest (by rw [sizeV] at hs; omega) hrest]
    · intro v vs rest hsl hrest
      rw [parseElems]
      rw [ihV v _ (by rw [sizeL] at hsl; omega) (bdry_dumpTail vs rest)]
      simp only []
      cases vs with
      | nil =>
        rw [show dumpTail ([] : List Json) ++ rest = ']' :: rest from rfl]
        rw [skipWs_not_ws _ _ (by decide)]
        simp only []
        simp
      | cons w ws =>
        rw [show dumpTail (w :: ws) ++ rest
            = ',' :: ' ' :: (dumpV w ++ (dumpTail ws ++ rest)) from by
          rw [show dumpTail (w :: ws)
              = ',' :: ' ' :: (dumpV w ++ dumpTail ws) from rfl]
          simp [List.append_assoc]]
        rw [skipWs_not_ws _ _ (by decide)]
        simp only []
        rw [if_neg (by decide), if_pos trivial]
        rw [skipWs_space, skipWs_dumpV]
        rw [ihE w ws rest (by rw [sizeL] at hsl; omega) hrest]
    · intro k x ms rest hsm hrest
      rw [dumpMem_shape]
      rw [parseMems]
      rw [if_pos rfl]
      rw [parseStrBody_esc]
      simp only []
      rw [skipWs_not_ws _ _ (by decide)]
      simp only []
      rw [if_pos trivial]
      rw [skipWs_space, skipWs_dumpV]
      rw [ihV x _ (by simp only [sizeM] at hsm; omega) (bdry_dumpMTail ms rest)]
      simp only []
      cases ms with
      | nil =>
        rw [show dumpMTail ([] : List (String × Json)) ++ rest
            = rbraceChar :: rest from rfl]
        rw [skipWs_not_ws _ _ (by decide)]
        simp only []
        rw [if_pos trivial]
      | cons m2 ms2 =>
        obtain ⟨k2, x2⟩ := m2
        rw [show dumpMTail ((k2, x2) :: ms2) ++ rest
            = ',' :: ' ' :: (dumpMem (k2, x2) ++ (dumpMTail ms2 ++ rest)) from by
          rw [show dumpMTail ((k2, x2) :: ms2)
              = ',' :: ' ' :: (dumpMem (k2, x2) ++ dumpMTail ms2) from rfl]
          simp [List.append_assoc]]
        rw [skipWs_not_ws _ _ (by decide)]
        simp only []
        rw [if_neg (by decide), if_pos trivial]
        rw [skipWs_space]
        rw [dumpMem_shape, skipWs_not_ws _ _ (by decide), ← dumpMem_shape]
        rw [ihM k2 x2 ms2 rest (by simp only [sizeM] at hsm ⊢; omega) hrest]

theorem dumpTail_len_pos (vs : List Json) : 1 ≤ (dumpTail vs).length := by
  cases vs <;> simp [dumpTail]

theorem dumpMTail_len_pos (ms : List (String × Json)) :
    1 ≤ (dumpMTail ms).length := by
  cases ms <;> simp [dumpMTail]

theorem escChars_len_pos (s : List Char) : 1 ≤ (escChars s).length := by
  induction s with
  | nil => simp [escChars]
  | cons c r ih =>
    rw [escChars]
    by_cases hq : c = '"'
    · simp [hq]
    · by_cases hb : c = '\\'
      · simp [hq, hb]
      · simp [hq, hb]

theorem size_le_dump : ∀ n : Nat,
    (∀ j : Json, sizeV j ≤ n → sizeV j ≤ (dumpV j).length + 1) ∧
    (∀ (v : Json) (vs : List Json), sizeL (v :: vs) ≤ n →
      sizeL (v :: vs) ≤ (dumpV v ++ dumpTail vs).length + 1) ∧
    (∀ (k : String) (x : Json) (ms : List (String × Json)),
      sizeM ((k, x) :: ms) ≤ n →
      sizeM ((k, x) :: ms) ≤ (dumpMem (k, x) ++ dumpMTail ms).length + 1) := by
  intro n
  induction n with
  | zero =>
    refine ⟨?_, ?_, ?_⟩
    · intro j hs
      have := sizeV_pos j
      omega
    · intro v vs hs
      rw [sizeL] at hs
      omega
    · intro k x ms hs
      simp only [sizeM] at hs
      omega
  | succ n ih =>
    obtain ⟨ihV, ihE, ihM⟩ := ih
    refine ⟨?_, ?_, ?_⟩
    · intro j hs
      cases j with
      | null => simp [sizeV, dumpV]
      | bool b => cases b <;> simp [sizeV, dumpV]
      | num i => simp [sizeV]
      | str s => simp [sizeV]
      | arr l =>
        cases l with
        | nil => simp [sizeV, sizeL, dumpV]
        | cons v vs =>
          rw [sizeV] at hs ⊢
          have h1 : sizeL (v :: vs) ≤ (dumpV v ++ dumpTail vs).length + 1 :=
            ihE v vs (by omega)
          rw [show dumpV (Json.arr (v :: vs))
              = '[' :: (dumpV v ++ dumpTail vs) from rfl]
          simp only [List.length_cons]
          omega
      | obj m =>
        cases m with
        | nil => simp [sizeV, sizeM, dumpV]
        | cons f ms =>
          obtain ⟨k, x⟩ := f
          rw [sizeV] at hs ⊢
          have h1 : sizeM ((k, x) :: ms)
              ≤ (dumpMem (k, x) ++ dumpMTail ms).length + 1 :=
            ihM k x ms (by omega)
          rw [show dumpV (Json.obj ((k, x) :: ms))
              = lbraceChar :: (dumpMem (k, x) ++ dumpMTail ms) from rfl]
          simp only [List.length_cons]
          omega
    · intro v vs hsl
      rw [sizeL] at hsl ⊢
      have hv : sizeV v ≤ (dumpV v).length + 1 := ihV v (by omega)
      have htp := dumpTail_len_pos vs
      cases vs with
      | nil =>
        rw [sizeL]
        simp only [List.length_append]
        omega
      | cons w ws =>
        have hw : sizeL (w :: ws) ≤ (dumpV w ++ dumpTail ws).length + 1 :=
          ihE w ws (by omega)
        rw [show dumpTail (w :: ws)
            = ',' :: ' ' :: (dumpV w ++ dumpTail ws) from rfl]
        simp only [List.length_append, List.length_cons] at hw ⊢
        omega
    · intro k x ms hsm
      simp only [sizeM] at hsm ⊢
      have hx : sizeV x ≤ (dumpV x).length + 1 := ihV x (by omega)
      have hmp := dumpMTail_len_pos ms
      have hkp := escChars_len_pos k.data
      have hmem : (dumpMem (k, x)).length = 1 + (escChars k.data).length
          + 2 + (dumpV x).length := by
        rw [show dumpMem (k, x)
            = ('"' :: escChars k.data) ++ (':' :: ' ' :: dumpV x) from rfl]
        simp only [List.length_append, List.length_cons]
        omega
      cases ms with
      | nil =>
        rw [sizeM]
        simp only [List.length_append]
        omega
      | cons m2 ms2 =>
        obtain ⟨k2, x2⟩ := m2
        have h2 : sizeM ((k2, x2) :: ms2)
            ≤ (dumpMem (k2, x2) ++ dumpMTail ms2).length + 1 :=
          ihM k2 x2 ms2 (by omega)
        rw [show dumpMTail ((k2, x2) :: ms2)
            = ',' :: ' ' :: (dumpMem (k2, x2) ++ dumpMTail ms2) from rfl]
        simp only [List.length_append, List.length_cons] at h2 ⊢
        omega

/-- Round trip of the JSON model: reading back a serialized value
yields the value. -/
theorem json_roundtrip (j : Json) : json_loads (json_dumps j) = some j := by
  rw [json_loads, json_dumps]
  rw [show (String.mk (dumpV j)).data = dumpV j from rfl]
  rw [show skipWs (dumpV j) = dumpV j from by
    have h := skipWs_dumpV j []
    simpa using h]
  have hsz : sizeV j ≤ (dumpV j).length + 1 :=
    (size_le_dump (sizeV j)).1 j (le_refl _)
  have hrt := (parse_dumpV_rt ((dumpV j).length + 1)).1 j [] hsz (Or.inl rfl)
  rw [show dumpV j ++ [] = dumpV j from by simp] at hrt
  rw [hrt]
  simp [skipWs]

/-- C6 counterexample: a stored row whose extra_metrics column is the
empty string is returned with the raw empty string, not converted to an
empty mapping, so the empty-or-null-column clause of the claim fails. -/
theorem extra_metrics_raw_cex :
    get_process_data none none none none [rawColRow]
      = [⟨"2025-01-01T00:00:00", 9, "x", "", "", 0, 0,
          ExtraOut.raw (some "")⟩] ∧
    ExtraOut.raw (some "") ≠ ExtraOut.parsed (Json.obj []) :=
  ⟨rfl, fun h => ExtraOut.noConfusion h⟩

/-- C6 (amended): a ProcessSample stored through insert_process_info
reads back through get_process_data with an extra_metrics mapping equal
to the one stored, both for non-trivial and for empty mappings (the
empty mapping is stored as the literal empty-object text); but a stored
column that is NULL or the empty string is returned as the raw falsy
value, not as an empty mapping.  Validity restricts the modelled
mappings to printable-ASCII strings and integer numbers. -/
theorem extra_metrics_roundtrip :
    (∀ (now : String) (p : ProcessInfo),
      validM p.extra_metrics = true →
      get_process_data (some p.pid) none none none (insert_process_info now p [])
        = [⟨now, p.pid, p.name, p.command_line, p.user, p.cpu_percent,
            p.memory_mb, ExtraOut.parsed (Json.obj p.extra_metrics)⟩]) ∧
    (∀ r : ProcRow, r.extra_metrics = none ∨ r.extra_metrics = some "" →
      (decodeRow r).extra_metrics = ExtraOut.raw r.extra_metrics) := by
  constructor
  · intro now p _hval
    have hins : insert_process_info now p [] = [mkProcRow now p] := rfl
    rw [hins]
    have hpred : procPred (some p.pid) none none none (mkProcRow now p) = true := by
      simp [procPred, mkProcRow]
    rw [get_process_data]
    rw [show List.filter (procPred (some p.pid) none none none) [mkProcRow now p]
        = [mkProcRow now p] from by simp [List.filter, hpred]]
    rw [show List.insertionSort rowLe [mkProcRow now p] = [mkProcRow now p] from rfl]
    rw [show List.map decodeRow [mkProcRow now p]
        = [decodeRow (mkProcRow now p)] from rfl]
    have hextra : decodeExtra (mkProcRow now p).extra_metrics
        = ExtraOut.parsed (Json.obj p.extra_metrics) := by
      rw [show (mkProcRow now p).extra_metrics
          = some (if p.extra_metrics.isEmpty then "\x7b\x7d"
              else json_dumps (Json.obj p.extra_metrics)) from rfl]
      by_cases he : p.extra_metrics.isEmpty = true
      · rw [if_pos he]
        have hemp : p.extra_metrics = [] := by simpa using he
        rw [hemp]
        rfl
      · rw [if_neg he]
        have hne2 : (json_dumps (Json.obj p.extra_metrics)).data.isEmpty = false := by
          cases hpe : p.extra_metrics with
          | nil => exact absurd (by rw [hpe]; rfl) he
          | cons f ms => rfl
        rw [decodeExtra.eq_def]
        simp only []
        rw [if_neg (by rw [hne2]; exact Bool.false_ne_true)]
        rw [json_roundtrip (Json.obj p.extra_metrics)]
    rw [show decodeRow (mkProcRow now p)
        = ⟨now, p.pid, p.name, p.command_line, p.user, p.cpu_percent,
            p.memory_mb, decodeExtra (mkProcRow now p).extra_metrics⟩ from rfl]
    rw [hextra]
  · intro r h
    rcases h with h | h <;> simp [decodeRow, decodeExtra, h]

/-- C6 witness: a sample with a non-trivial mapping of integers,
nested values and a string round-trips through the store. -/
theorem extra_metrics_roundtrip_witness :
    validM demoProc.extra_metrics = true ∧
    get_process_data (some 3) none none none
        (insert_process_info "2025-01-01T00:00:00.000001" demoProc [])
      = [⟨"2025-01-01T00:00:00.000001", 3, "chrome", "/opt/chrome", "user",
          12, 345, ExtraOut.parsed (Json.obj demoProc.extra_metrics)⟩] :=
  ⟨by decide,
    extra_metrics_roundtrip.1 "2025-01-01T00:00:00.000001" demoProc (by decide)⟩

end Performance2025
